import Mathlib

/-!
Shallow embedding of the MMTQA translation-orchestration engine.

Source files modelled here:
  * `src/table_translation/translator.py`   (TableTranslator, checkpointing, 4-step pipeline)
  * `src/table_translation/prompts.py`      (TableJSON pydantic schema)
  * `src/table_translation/models/gemini_client.py` (GeminiClient key rotation)
  * `src/table_translation/models/vLLM_client.py`   (VLLMClient retry loop)
  * `src/qa_translation/translator.py`      (APIKeyRotator, TranslationTracker, QATranslator)
  * `src/qa_translation/run_qa_translation.py` (per-language QA loop)
  * `src/utils/table_metrics.py`            (flatten + BLEU gate)
  * `src/configs/translation_config.py`     (BLEU_THRESHOLD = 0)

Time is modelled as rational seconds; backend responses are supplied by
oracle functions, so every run of the model is a pure function of the
oracles and the initial state.
-/

namespace MMTQA

/-- A JSON value, as produced by `json.load` on a checkpoint file. -/
inductive Json where
  | null : Json
  | bool (b : Bool) : Json
  | str (s : String) : Json
  | num (n : Int) : Json
  | arr (elems : List Json) : Json
  | obj (fields : List (String × Json)) : Json
deriving Repr

/-- Python truthiness of a JSON value (`if checkpoint:` in `_load_step_results`). -/
def Json.truthy : Json → Bool
  | .null => false
  | .bool b => b
  | .str s => !s.isEmpty
  | .num n => n != 0
  | .arr xs => !xs.isEmpty
  | .obj fs => !fs.isEmpty

/-- Field lookup in a JSON object (`dict.get`). -/
def Json.lookup : Json → String → Option Json
  | .obj fields, k => fields.lookup k
  | _, _ => none

/-- Coerce a JSON value to a string, failing on non-strings
(pydantic `str` field validation). -/
def Json.asString : Json → Option String
  | .str s => some s
  | _ => none

/-- Coerce a JSON value to a list of strings (pydantic `List[str]`). -/
def Json.asStringList : Json → Option (List String)
  | .arr xs => xs.mapM Json.asString
  | _ => none

/-- Python `str(cell)` for the cell values met in table files. -/
def Json.pyStr : Json → String
  | .null => "None"
  | .bool b => if b then "True" else "False"
  | .str s => s
  | .num n => toString n
  | .arr _ => "[...]"
  | .obj _ => "..."

/-- The `TableJSON` pydantic model of `src/table_translation/prompts.py`:
`columns: List[str]`, `data: List[List[str]]`.  The schema constrains only
the field types, not the row/column counts. -/
structure TableJSON where
  columns : List String
  data : List (List String)
deriving Repr, DecidableEq

namespace TableJSON

/-- `TableJSON.model_validate` on a parsed JSON value: requires a dict with a
`columns` field that is a list of strings and a `data` field that is a list of
lists of strings.  No shape comparison with any other table is performed. -/
def model_validate (j : Json) : Option TableJSON :=
  match j with
  | .obj _ =>
    match j.lookup "columns", j.lookup "data" with
    | some cj, some dj =>
      match cj.asStringList with
      | some cols =>
        match dj with
        | .arr rows =>
          match rows.mapM Json.asStringList with
          | some d => some ⟨cols, d⟩
          | none => none
        | _ => none
      | none => none
    | _, _ => none
  | _ => none

/-- `TableJSON.model_dump`: serialize back to a JSON dict. -/
def model_dump (t : TableJSON) : Json :=
  .obj [("columns", .arr (t.columns.map Json.str)),
        ("data", .arr (t.data.map (fun row => .arr (row.map Json.str))))]

end TableJSON

/-- The checkpoint step names used by `TableTranslator._save_checkpoint` /
`_load_checkpoint` (file names `{step_name}_{lang}.json`). -/
inductive StepName where
  | original : StepName
  | step1 : StepName
  | step2 : StepName
  | step3 : StepName
deriving Repr, DecidableEq

/-- Which backend entry point a call went to (instrumentation of the model;
the code has no explicit log, this records every dispatch to a backend). -/
inductive CallTag where
  | vllmStep1 : CallTag
  | geminiStep1 : CallTag
  | geminiStep2 : CallTag
  | geminiStep3 : CallTag
deriving Repr, DecidableEq

/-- One backend call issued for one (language) prompt of the current table. -/
structure Call where
  tag : CallTag
  lang : String
deriving Repr, DecidableEq

/-- Durable state on disk for one table id: the checkpoint files under
`CHECKPOINTS_DIR/table_id` (`none` = missing or unparseable JSON, matching
`_load_checkpoint` returning `None`) and the final outputs under
`TRANSLATED_TABLES_DIR/table_id`. -/
structure Store where
  checkpoints : StepName → String → Option Json
  finalOutputs : String → Option Json

/-- `TableTranslator._save_checkpoint`. -/
def saveCheckpoint (st : Store) (step : StepName) (lang : String) (j : Json) : Store :=
  { st with checkpoints := fun s l =>
      if s = step ∧ l = lang then some j else st.checkpoints s l }

/-- Write the final translated table (`TRANSLATED_TABLES_DIR/table_id/lang.json`). -/
def saveFinal (st : Store) (lang : String) (j : Json) : Store :=
  { st with finalOutputs := fun l => if l = lang then some j else st.finalOutputs l }

/-- Save a batch of step results as checkpoints, one per language. -/
def saveMany (st : Store) (step : StepName) (items : List (String × TableJSON)) : Store :=
  items.foldl (fun acc it => saveCheckpoint acc step it.1 it.2.model_dump) st

/-- `TableTranslator._check_language_completion`: the final translated file
for this language exists. -/
def langCompleted (st : Store) (lang : String) : Bool :=
  (st.finalOutputs lang).isSome

/-- `TableTranslator._get_remaining_languages`. -/
def remainingLanguages (st : Store) (langs : List String) : List String :=
  langs.filter (fun l => !langCompleted st l)

/-- `TableTranslator._get_languages_needing_step`: a language needs the step
iff `_load_checkpoint` returned `None` (missing file or JSON parse failure);
the content is not validated here. -/
def languagesNeedingStep (st : Store) (step : StepName) (langs : List String) : List String :=
  langs.filter (fun l => (st.checkpoints step l).isNone)

/-- `TableTranslator._load_step_results`: keep a language iff its checkpoint
loads, is truthy, and validates against the `TableJSON` schema. -/
def loadStepResults (st : Store) (step : StepName) (langs : List String) :
    List (String × TableJSON) :=
  langs.filterMap (fun l =>
    match st.checkpoints step l with
    | some j => if j.truthy then (TableJSON.model_validate j).map (fun t => (l, t)) else none
    | none => none)

/-- `flatten_table_for_bleu` (`src/utils/table_metrics.py`): column names
followed by row-major stringified cells. -/
def flattenTableForBleu (j : Json) : List String :=
  let cols : List String :=
    match j.lookup "columns" with
    | some (.arr xs) => xs.map Json.pyStr
    | _ => []
  let cells : List String :=
    match j.lookup "data" with
    | some (.arr rows) =>
      rows.flatMap (fun row =>
        match row with
        | .arr cs => cs.map Json.pyStr
        | _ => [])
    | _ => []
  cols ++ cells

/-- `calculate_bleu` (`src/utils/table_metrics.py`): 0.0 when either flattened
sequence is empty, otherwise the smoothed `sentence_bleu` score, supplied as
an oracle because `nltk` is an external library. -/
def calculateBleu (sentenceBleu : List String → List String → ℚ)
    (reference candidate : Json) : ℚ :=
  let referenceTokens := flattenTableForBleu reference
  let candidateTokens := flattenTableForBleu candidate
  if referenceTokens.isEmpty || candidateTokens.isEmpty then 0
  else sentenceBleu referenceTokens candidateTokens

/-- The quality-gate decision of step 4 (`translator.py` line 322):
`"KEEP" if bleu_score >= cfg.BLEU_THRESHOLD else "DROP"`,
`true` standing for KEEP. -/
def gateDecision (score threshold : ℚ) : Bool :=
  score ≥ threshold

/-- One quality-metadata record written by step 4
(`TRANSLATION_METADATA_DIR/table_id/lang.json`). -/
structure Verdict where
  lang : String
  score : ℚ
  threshold : ℚ
  keep : Bool
deriving Repr, DecidableEq

/-- The collaborators of one `run_batch_translation` call: the original table
JSON and the backend/scoring oracles.  Backend responses are a pure function
of (step, language) because the prompt sent for a given step and language is
a fixed function of the run's inputs. -/
structure PipeCtx where
  orig : Json
  vllm : String → Option TableJSON
  gemini : StepName → String → Option TableJSON
  sentenceBleu : List String → List String → ℚ
  threshold : ℚ

/-- Step 1 of `run_batch_translation` (lines 106-179): languages whose step-1
checkpoint file exists are skipped; the rest go to the vLLM batch call, and
vLLM failures are retried once on Gemini.  Every success is checkpointed.
The successful writes are applied as one batch per backend; the keys written
by the vLLM loop and the Gemini retry loop are disjoint, so the resulting
store equals the one produced by the interleaved per-language writes. -/
def step1Run (ctx : PipeCtx) (st : Store) (remaining : List String) :
    Store × List (String × TableJSON) × List Call :=
  let needing := languagesNeedingStep st .step1 remaining
  let loaded := loadStepResults st .step1 remaining
  if needing.isEmpty then (st, loaded, [])
  else
    let vllmRes := needing.filterMap (fun l => (ctx.vllm l).map (fun t => (l, t)))
    let failed := needing.filter (fun l => (ctx.vllm l).isNone)
    let geminiRes := failed.filterMap (fun l => (ctx.gemini .step1 l).map (fun t => (l, t)))
    let calls := needing.map (fun l => Call.mk .vllmStep1 l)
      ++ failed.map (fun l => Call.mk .geminiStep1 l)
    (saveMany (saveMany st .step1 vllmRes) .step1 geminiRes,
     loaded ++ vllmRes ++ geminiRes, calls)

/-- Steps 2 and 3 of `run_batch_translation` (lines 181-297): sequential
Gemini calls for the languages whose checkpoint for this step is missing,
merged with the results loaded from existing checkpoints. -/
def seqStepRun (ctx : PipeCtx) (st : Store) (step : StepName) (tag : CallTag)
    (cands : List String) : Store × List (String × TableJSON) × List Call :=
  let needing := languagesNeedingStep st step cands
  let loaded := loadStepResults st step cands
  let newRes := needing.filterMap (fun l => (ctx.gemini step l).map (fun t => (l, t)))
  (saveMany st step newRes, loaded ++ newRes, needing.map (fun l => Call.mk tag l))

/-- The body of the step-4 loop (lines 305-346), for one refined language:
skip it (counting it kept) if the final output already exists, skip it
without a verdict if no back-translation is available, otherwise score the
round trip, record the metadata verdict, and on KEEP write the *refined*
table as the final output. -/
def step4Body (ctx : PipeCtx) (back : List (String × TableJSON))
    (acc : Store × List Verdict × List String × List String)
    (it : String × TableJSON) : Store × List Verdict × List String × List String :=
  let (st, verdicts, kept, dropped) := acc
  let (l, rtab) := it
  if langCompleted st l then (st, verdicts, kept ++ [l], dropped)
  else
    match back.lookup l with
    | none => (st, verdicts, kept, dropped)
    | some btab =>
      let score := calculateBleu ctx.sentenceBleu ctx.orig btab.model_dump
      let keep := gateDecision score ctx.threshold
      let verdicts2 := verdicts ++ [⟨l, score, ctx.threshold, keep⟩]
      if keep then (saveFinal st l rtab.model_dump, verdicts2, kept ++ [l], dropped)
      else (st, verdicts2, kept, dropped ++ [l])

/-- Step 4 of `run_batch_translation` (lines 299-350): the BLEU-evaluation
loop over the refined languages. -/
def step4Run (ctx : PipeCtx) (st : Store)
    (refined back : List (String × TableJSON)) :
    Store × List Verdict × List String × List String :=
  refined.foldl (step4Body ctx back) (st, [], [], [])

/-- The observable outcome of one `run_batch_translation` call:
the final disk state, every backend dispatch, the languages that failed
step 1 after both backends (line 170), and the step-4 records. -/
structure RunResult where
  store : Store
  calls : List Call
  step1Failed : List String
  verdicts : List Verdict
  kept : List String
  dropped : List String

/-- Steps 2-4 of `run_batch_translation` (lines 181-350), reached only when
step 1 succeeded for at least one language (`if not successful_langs: return`
at line 177): refine the successful languages, back-translate the refined
ones, and run the BLEU gate.  `st1` is the store after step 1, `calls1` the
backend calls made by step 1. -/
def runBatchTail (ctx : PipeCtx) (st1 : Store)
    (remaining successful step1Failed : List String) (calls1 : List Call) : RunResult :=
  if successful.isEmpty then ⟨st1, calls1, step1Failed, [], [], []⟩
  else
    let r2 := seqStepRun ctx st1 .step2 .geminiStep2 successful
    let st2 := r2.1
    let refined := r2.2.1
    let calls2 := r2.2.2
    let cands3 := remaining.filter (fun l => (refined.lookup l).isSome)
    let r3 := seqStepRun ctx st2 .step3 .geminiStep3 cands3
    let st3 := r3.1
    let back := r3.2.1
    let calls3 := r3.2.2
    let r4 := step4Run ctx st3 refined back
    ⟨r4.1, calls1 ++ calls2 ++ calls3, step1Failed, r4.2.1, r4.2.2.1, r4.2.2.2⟩

/-- `TableTranslator.run_batch_translation` (lines 83-350), with the rate-limit
sleeps of steps 2 and 3 elided (they do not affect any output).  Checkpoints
of a step are always read before any checkpoint of that step is written, so
each step's reads go to the store as of the start of that step. -/
def runBatch (ctx : PipeCtx) (st0 : Store) (langs : List String) : RunResult :=
  let remaining := remainingLanguages st0 langs
  if remaining.isEmpty then ⟨st0, [], [], [], [], []⟩
  else
    let stA := saveCheckpoint st0 .original "en" ctx.orig
    let r1 := step1Run ctx stA remaining
    let initialResults := r1.2.1
    runBatchTail ctx r1.1 remaining
      (remaining.filter (fun l => (initialResults.lookup l).isSome))
      (remaining.filter (fun l => (initialResults.lookup l).isNone))
      r1.2.2

/-! ## QA translation (`src/qa_translation`) -/

/-- One English QA pair as read from a `*_qa.json` file: a question, an
answer in the multi-row multi-column shape, a question type, plus further
metadata fields that `main` copies through untouched. -/
structure QAPair where
  question : String
  answer : List (List String)
  questionType : String
  meta : List (String × String)
deriving Repr, DecidableEq

/-- The `TranslatedQA` pydantic model of `src/qa_translation/prompts.py`. -/
structure TranslatedQA where
  translated_question : String
  translated_answer : List (List String)
deriving Repr, DecidableEq

/-- The per-QA-pair branch of `run_qa_translation.main` (lines 63-78):
for language code `"en"` the English pair is copied with no call to
`QATranslator.translate`; otherwise `translate` is called (its outcome is the
`tr` oracle) and on success the copy gets the translated question and answer.
Returns the produced pair, if any, and whether a backend translation was
attempted. -/
def processQAPair (langCode : String) (pair : QAPair) (tr : Option TranslatedQA) :
    Option QAPair × Bool :=
  if langCode = "en" then (some pair, false)
  else
    match tr with
    | some t => (some { pair with question := t.translated_question,
                                  answer := t.translated_answer }, true)
    | none => (none, true)

/-- The QA-pair loop of `main` for one (table, language): each pair comes with
its `translate` outcome; successes are collected in order, failures counted. -/
def translateLang (langCode : String) (items : List (QAPair × Option TranslatedQA)) :
    List QAPair × Nat :=
  items.foldl (fun acc it =>
    match processQAPair langCode it.1 it.2 with
    | (some p, _) => (acc.1 ++ [p], acc.2)
    | (none, _) => (acc.1, acc.2 + 1))
    ([], 0)

/-- The save-and-mark epilogue of `main` (lines 92-110): the translated list
is written and the (language, table) pair marked completed iff the list is
non-empty (`if translated_qa_list:`), regardless of how many pairs failed. -/
def finishLanguage (translated : List QAPair) : Option (List QAPair) × Bool :=
  if translated.isEmpty then (none, false) else (some translated, true)

/-- `TranslationTracker.is_completed`, re-derived from the output directory:
a (language, table) pair is completed iff its output file exists. -/
def trackerIsCompleted (outputs : String → String → Option (List QAPair))
    (langCode tableId : String) : Bool :=
  (outputs langCode tableId).isSome

/-- Write one translated QA file (`OUTPUT_DIR/lang/table_qa.json`). -/
def writeQAOutput (outputs : String → String → Option (List QAPair))
    (langCode tableId : String) (content : List QAPair) :
    String → String → Option (List QAPair) :=
  fun lc tid => if lc = langCode ∧ tid = tableId then some content else outputs lc tid

/-- The per-language loop of `run_qa_translation.main`: every language is
processed independently (only the inner QA-pair loop can `break`, never the
language loop), so each language in the run gets its own outcome from the
processing function. -/
def runLanguagesLoop (process : String → Option (List QAPair)) (langs : List String) :
    List (String × Option (List QAPair)) :=
  langs.map (fun l => (l, process l))

/-! ## GeminiClient key rotation (`src/table_translation/models/gemini_client.py`) -/

/-- Mutable state of a `GeminiClient`: the pool size, the current key index
and the set of keys recorded as having hit quota (`self.failed_keys`). -/
structure GCState where
  numKeys : Nat
  currentKeyIndex : Nat
  failedKeys : Finset Nat
deriving DecidableEq

/-- The scan loop inside `GeminiClient._rotate_key`: advance circularly up to
`numKeys` times looking for a key not in `failed_keys`. -/
def gcRotateLoop (fuel : Nat) (s : GCState) : GCState × Bool :=
  match fuel with
  | 0 => (s, false)
  | fuel + 1 =>
    let s1 := { s with currentKeyIndex := (s.currentKeyIndex + 1) % s.numKeys }
    if s1.currentKeyIndex ∈ s1.failedKeys then gcRotateLoop fuel s1
    else (s1, true)

/-- `GeminiClient._rotate_key` (lines 24-43): mark the current key failed;
if every key is failed report failure, otherwise rotate to the next
non-failed key. -/
def gcRotateKey (s : GCState) : GCState × Bool :=
  let s0 := { s with failedKeys := insert s.currentKeyIndex s.failedKeys }
  if s0.numKeys ≤ s0.failedKeys.card then (s0, false)
  else gcRotateLoop s0.numKeys s0

/-- `GeminiClient.reset_failed_keys`. -/
def gcResetFailedKeys (s : GCState) : GCState :=
  { s with failedKeys := ∅ }

/-- Outcome of one `generate_content` + `TableJSON.model_validate_json`
attempt inside `GeminiClient.generate_structured_json`. -/
inductive GenOutcome where
  | ok (t : TableJSON) : GenOutcome
  | quotaErr : GenOutcome
  | otherErr : GenOutcome
deriving Repr

/-- The retry loop of `GeminiClient.generate_structured_json` (lines 45-91):
`fuel` is the number of remaining retries (`max_retries - retry_count`),
`calls` counts the attempts made so far (indexing the outcome oracle).
On success the current key is *discarded from* `failed_keys`; a quota-class
error rotates and consumes one retry; any other error returns `None`
immediately.  Returns the final state, the result, and the number of
attempts made. -/
def gcGenLoop (outcomes : Nat → GenOutcome) : Nat → Nat → GCState →
    GCState × Option TableJSON × Nat
  | 0, calls, s => (s, none, calls)
  | fuel + 1, calls, s =>
    match outcomes calls with
    | .ok t =>
      ({ s with failedKeys := s.failedKeys.erase s.currentKeyIndex }, some t, calls + 1)
    | .quotaErr =>
      let r := gcRotateKey s
      if r.2 then gcGenLoop outcomes fuel (calls + 1) r.1
      else (r.1, none, calls + 1)
    | .otherErr => (s, none, calls + 1)

/-- `GeminiClient.generate_structured_json` with the default
`max_retries = len(api_keys)`. -/
def gcGenerate (outcomes : Nat → GenOutcome) (s : GCState) :
    GCState × Option TableJSON × Nat :=
  gcGenLoop outcomes s.numKeys 0 s

/-! ## APIKeyRotator (`src/qa_translation/translator.py`, lines 14-145)

Time is rational seconds; `datetime.now()` is the explicit `t` argument and
`timedelta(minutes=1)` is the constant 60. -/

/-- State of an `APIKeyRotator`: pool size, per-key requests-per-minute
limit, current key pointer, per-key request-timestamp history (oldest first,
as in the `deque`), and the quota-exceeded set.  Keys marked quota-exceeded
are always current pointers, hence `< numKeys`, so the set is modelled as a
predicate counted over `range numKeys`. -/
structure RotState where
  numKeys : Nat
  rpm : Nat
  current : Nat
  hist : Nat → List ℚ
  quota : Nat → Bool

/-- The popleft loop of `_clean_old_requests`: drop leading timestamps
strictly older than one minute. -/
def clean (t : ℚ) (l : List ℚ) : List ℚ :=
  l.dropWhile (fun ts => ts < t - 60)

/-- `APIKeyRotator._clean_old_requests` applied to key `k` at time `t`. -/
def cleanOld (t : ℚ) (s : RotState) (k : Nat) : RotState :=
  { s with hist := fun i => if i = k then clean t (s.hist i) else s.hist i }

/-- `APIKeyRotator.can_make_request`: quota-exceeded keys refuse immediately;
otherwise clean the history and compare its length to the per-minute limit.
Returns the mutated state together with the boolean. -/
def canMakeRequest (t : ℚ) (s : RotState) (k : Nat) : RotState × Bool :=
  if s.quota k then (s, false)
  else
    let s1 := cleanOld t s k
    (s1, decide ((s1.hist k).length < s1.rpm))

/-- `APIKeyRotator.record_request`: append the current timestamp. -/
def recordRequest (t : ℚ) (s : RotState) (k : Nat) : RotState :=
  { s with hist := fun i => if i = k then s.hist i ++ [t] else s.hist i }

/-- `APIKeyRotator.get_wait_time`: 0 when under the limit, otherwise the time
until the oldest recorded request leaves the one-minute window. -/
def getWaitTime (t : ℚ) (s : RotState) (k : Nat) : RotState × ℚ :=
  let s1 := cleanOld t s k
  if (s1.hist k).length < s1.rpm then (s1, 0)
  else
    match s1.hist k with
    | [] => (s1, 0)
    | oldest :: _ => (s1, max 0 (oldest + 60 - t))

/-- `APIKeyRotator.has_available_keys`. -/
def hasAvailableKeys (s : RotState) : Bool :=
  ((List.range s.numKeys).filter (fun k => s.quota k)).length < s.numKeys

/-- `APIKeyRotator.mark_quota_exceeded`. -/
def markQuotaExceeded (s : RotState) (k : Nat) : RotState :=
  { s with quota := fun i => if i = k then true else s.quota i }

/-- The scan loop of `wait_or_rotate` (lines 99-116): advance the pointer
circularly; skip quota-exceeded keys; return as soon as a key can make a
request (`none` in the second component); otherwise track the key with the
strictly smallest wait time.  `fuel` is `len(api_keys) - attempts`. -/
def rotateScan (t : ℚ) : Nat → RotState → Option ℚ → Nat →
    RotState × Option (Option ℚ × Nat)
  | 0, s, minW, best => (s, some (minW, best))
  | fuel + 1, s, minW, best =>
    let s1 := { s with current := (s.current + 1) % s.numKeys }
    if s1.quota s1.current then rotateScan t fuel s1 minW best
    else
      let c := canMakeRequest t s1 s1.current
      if c.2 then (c.1, none)
      else
        let g := getWaitTime t c.1 s1.current
        let better : Bool :=
          match minW with
          | none => true
          | some m => decide (g.2 < m)
        if better then rotateScan t fuel g.1 (some g.2) s1.current
        else rotateScan t fuel g.1 minW best

/-- How `wait_or_rotate` returned. -/
inductive AcquireOutcome where
  | noWait : AcquireOutcome
  | rotated : AcquireOutcome
  | waited (w : ℚ) : AcquireOutcome
deriving Repr, DecidableEq

/-- `APIKeyRotator.wait_or_rotate` (lines 80-126): `none` models the
all-keys-exhausted exception; otherwise the mutated state, the time after any
sleep (the code sleeps `wait_time + 0.5`), and how the call returned. -/
def waitOrRotate (t : ℚ) (s : RotState) : Option (RotState × ℚ × AcquireOutcome) :=
  if ¬ hasAvailableKeys s then none
  else
    let c := canMakeRequest t s s.current
    if c.2 then some (c.1, t, .noWait)
    else
      match rotateScan t s.numKeys c.1 none s.current with
      | (s2, none) => some (s2, t, .rotated)
      | (s2, some (_, best)) =>
        let s3 := { s2 with current := best }
        let g := getWaitTime t s3 best
        if g.2 > 0 then some (g.1, t + g.2 + 1/2, .waited g.2)
        else some (g.1, t, .waited 0)

/-- The scan loop of `APIKeyRotator.rotate_on_error` (lines 136-143). -/
def rotateOnErrorLoop : Nat → RotState → Option RotState
  | 0, _ => none
  | fuel + 1, s =>
    let s1 := { s with current := (s.current + 1) % s.numKeys }
    if s1.quota s1.current then rotateOnErrorLoop fuel s1
    else some s1

/-- `APIKeyRotator.rotate_on_error`: `none` models the raised exception. -/
def rotateOnError (s : RotState) : Option RotState :=
  if ¬ hasAvailableKeys s then none
  else rotateOnErrorLoop s.numKeys s

/-- Verification invariant for the rate limiter: every key's cleaned
(within-window) request count is at most the per-minute limit, and no
recorded timestamp sits exactly on the sliding-window boundary `t - 60`
(the boundary case is measure-zero in real time; the code's strict `<`
comparison makes it the one point where an expired-at-exactly-60s request
would still be counted). -/
def StInv (t : ℚ) (s : RotState) : Prop :=
  (∀ k, (clean t (s.hist k)).length ≤ s.rpm)
  ∧ (∀ k, ∀ ts ∈ s.hist k, ts + 60 ≠ t)

/-- Verification invariant of the `wait_or_rotate` scan bookkeeping: once a
minimum wait time has been recorded, the tracked best key is not
quota-exceeded, its stored history is already cleaned for time `t`, and it
is saturated (at the request limit). -/
def BestInv (t : ℚ) (s : RotState) (minW : Option ℚ) (best : Nat) : Prop :=
  ∀ w, minW = some w →
    s.quota best = false ∧ clean t (s.hist best) = s.hist best
      ∧ s.rpm ≤ (s.hist best).length

/-! ## QATranslator.translate (`src/qa_translation/translator.py`, lines 233-324) -/

/-- Classified outcome of one backend attempt inside `translate`: the
classification is the substring test on the exception message at lines
293-318 (`badJson` is a response that was received — hence recorded —
but failed pydantic validation). -/
inductive QAOutcome where
  | success (t : TranslatedQA) : QAOutcome
  | badJson : QAOutcome
  | quotaError : QAOutcome
  | rateLimitError : QAOutcome
  | otherError : QAOutcome
deriving Repr

/-- How `translate` ended. -/
inductive TrResult where
  | success (t : TranslatedQA) : TrResult
  | failed : TrResult
  | raised : TrResult
deriving Repr, DecidableEq

/-- The rolling state of the `translate` retry loop: rotator, clock, the
`total_attempts` counter and the number of backend calls issued (indexing
the outcome oracle). -/
structure TrIter where
  rot : RotState
  time : ℚ
  attempts : Nat
  calls : Nat

/-- The backoff applied at line 319: `min(2 ** (total_attempts % 5), 16)`. -/
def backoffWait (attempts : Nat) : ℚ :=
  min ((2 : ℚ) ^ (attempts % 5)) 16

/-- `QUOTA_ERROR_DELAY`: `getattr(cfg, 'QUOTA_ERROR_DELAY', 2)` and the
config file does not define it, so 2. -/
def quotaErrorDelay : ℚ := 2

/-- One iteration of the `translate` retry loop.  `done r` exits the loop with
result `r`; `next it w` continues after a backoff sleep of `w` (0 when no
backoff sleep was taken this iteration). -/
inductive StepOut where
  | done (r : TrResult) (it : TrIter) : StepOut
  | next (it : TrIter) (backoff : ℚ) : StepOut

/-- One iteration of `translate`'s `while` body (lines 263-321).  The
`wait_or_rotate` exception message does not contain any of the quota/rate
keywords, so it falls into the generic-backoff branch. -/
def translateStep (outcomes : Nat → QAOutcome) (maxTotal : Nat) (it : TrIter) : StepOut :=
  match waitOrRotate it.time it.rot with
  | none =>
    let a := it.attempts + 1
    if a < maxTotal then
      .next { it with attempts := a, time := it.time + backoffWait a } (backoffWait a)
    else .next { it with attempts := a } 0
  | some (rot1, t1, _) =>
    let key := rot1.current
    match outcomes it.calls with
    | .success tq =>
      .done (.success tq)
        { rot := recordRequest t1 rot1 key, time := t1,
          attempts := it.attempts, calls := it.calls + 1 }
    | .badJson =>
      let rot2 := recordRequest t1 rot1 key
      let a := it.attempts + 1
      if a < maxTotal then
        .next { rot := rot2, time := t1 + backoffWait a, attempts := a,
                calls := it.calls + 1 } (backoffWait a)
      else .next { rot := rot2, time := t1, attempts := a, calls := it.calls + 1 } 0
    | .quotaError =>
      let a := it.attempts + 1
      let rot2 := markQuotaExceeded rot1 key
      if ¬ hasAvailableKeys rot2 then
        .done .failed { rot := rot2, time := t1, attempts := a, calls := it.calls + 1 }
      else
        match rotateOnError rot2 with
        | some rot3 =>
          .next { rot := rot3, time := t1 + quotaErrorDelay, attempts := a,
                  calls := it.calls + 1 } 0
        | none =>
          .done .raised { rot := rot2, time := t1, attempts := a, calls := it.calls + 1 }
    | .rateLimitError =>
      let a := it.attempts + 1
      match rotateOnError rot1 with
      | some rot2 =>
        .next { rot := rot2, time := t1 + 1, attempts := a, calls := it.calls + 1 } 0
      | none =>
        .done .raised { rot := rot1, time := t1, attempts := a, calls := it.calls + 1 }
    | .otherError =>
      let a := it.attempts + 1
      if a < maxTotal then
        .next { rot := rot1, time := t1 + backoffWait a, attempts := a,
                calls := it.calls + 1 } (backoffWait a)
      else .next { rot := rot1, time := t1, attempts := a, calls := it.calls + 1 } 0

/-- The `while total_attempts < max_total_attempts` loop of `translate`;
every continuing iteration increments `attempts`, so `fuel` =
`maxTotal - attempts` bounds the loop. -/
def translateLoop (outcomes : Nat → QAOutcome) (maxTotal : Nat) :
    Nat → TrIter → TrResult × TrIter
  | 0, it => (.failed, it)
  | fuel + 1, it =>
    match translateStep outcomes maxTotal it with
    | .done r it1 => (r, it1)
    | .next it1 _ => translateLoop outcomes maxTotal fuel it1

/-- `QATranslator.translate`: `max_total_attempts = max_retries × #keys`,
starting from zero attempts and calls. -/
def qaTranslate (outcomes : Nat → QAOutcome) (maxRetries : Nat) (s : RotState)
    (t : ℚ) : TrResult × TrIter :=
  let maxTotal := maxRetries * s.numKeys
  translateLoop outcomes maxTotal maxTotal ⟨s, t, 0, 0⟩

/-! ## VLLMClient.generate_structured_json
(`src/table_translation/models/vLLM_client.py`, lines 16-35) -/

/-- The retry loop of `VLLMClient.generate_structured_json`: one credential,
`max_retries` attempts, sleeping `2 ** attempt` between attempts (recorded in
the returned list).  Returns the result, the number of attempts made, and the
backoff sleeps taken. -/
def vllmGenLoop (outcomes : Nat → Option TableJSON) (maxRetries : Nat)
    (attempt : Nat) (sleeps : List ℚ) : Option TableJSON × Nat × List ℚ :=
  if _h : attempt < maxRetries then
    match outcomes attempt with
    | some t => (some t, attempt + 1, sleeps)
    | none =>
      if attempt < maxRetries - 1 then
        vllmGenLoop outcomes maxRetries (attempt + 1) (sleeps ++ [(2 : ℚ) ^ attempt])
      else vllmGenLoop outcomes maxRetries (attempt + 1) sleeps
  else (none, attempt, sleeps)
termination_by maxRetries - attempt
decreasing_by all_goals omega

/-- `VLLMClient.generate_structured_json` with its default `max_retries = 3`. -/
def vllmGenerate (outcomes : Nat → Option TableJSON) (maxRetries : Nat) :
    Option TableJSON × Nat × List ℚ :=
  vllmGenLoop outcomes maxRetries 0 []

/-! ## Concrete fixtures used by witnesses and counterexamples -/

/-- A small source table: 2 columns × 2 rows. -/
def sampleTable : TableJSON := ⟨["name", "value"], [["alpha", "1"], ["beta", "2"]]⟩

/-- A small translated table of the same shape. -/
def sampleTableEs : TableJSON := ⟨["nombre", "valor"], [["alfa", "1"], ["beta", "2"]]⟩

/-- A store holding valid step-1/2/3 checkpoints for language "es" and
nothing else. -/
def fixtureStoreEs : Store :=
  ⟨fun s l =>
    if l = "es" ∧ (s = StepName.step1 ∨ s = StepName.step2 ∨ s = StepName.step3)
    then some sampleTableEs.model_dump else none,
   fun _ => none⟩

/-- The empty store: no checkpoints, no final outputs. -/
def emptyStore : Store := ⟨fun _ _ => none, fun _ => none⟩

/-- A context whose backends always answer with `sampleTableEs` and whose
BLEU oracle always scores 1. -/
def fixtureCtx : PipeCtx :=
  ⟨sampleTable.model_dump, fun _ => some sampleTableEs,
   fun _ _ => some sampleTableEs, fun _ _ => 1, 0⟩

/-- A schema-valid table whose shape (1 column × 1 row) differs from
`sampleTable` (2 columns × 2 rows). -/
def shrunkTable : TableJSON := ⟨["solo"], [["x"]]⟩

/-- A context whose vLLM backend answers with a table of a *different shape*
than the original. -/
def ctxBadShape : PipeCtx :=
  ⟨sampleTable.model_dump, fun _ => some shrunkTable,
   fun _ _ => some shrunkTable, fun _ _ => 1, 0⟩

/-- Two English QA pairs and a translation, for the QA-pipeline witnesses. -/
def sampleQA : QAPair := ⟨"What is alpha?", [["1"]], "value", []⟩

def sampleQA2 : QAPair := ⟨"What is beta?", [["2"]], "value", []⟩

def sampleTrans : TranslatedQA := ⟨"Qué es alfa", [["1"]]⟩

/-- An empty QA output directory. -/
def qaOutputsEmpty : String → String → Option (List QAPair) := fun _ _ => none

/-- A checkpoint file whose JSON parses and is truthy but fails `TableJSON`
validation (`columns` is a number, not a list of strings). -/
def badCheckpointJson : Json := .obj [("columns", .num 5), ("data", .arr [])]

/-- A store whose only record is the invalid step-1 checkpoint for "es". -/
def fixtureStoreBad : Store :=
  ⟨fun s l => if s = StepName.step1 ∧ l = "es" then some badCheckpointJson else none,
   fun _ => none⟩

/-! ## Helper lemmas -/

theorem lookup_eq_none_of_forall {α : Type} [BEq α] [LawfulBEq α] {l : α}
    {xs : List (α × TableJSON)} (h : ∀ t, (l, t) ∉ xs) : xs.lookup l = none := by
  induction xs with
  | nil => rfl
  | cons x xs ih =>
    obtain ⟨a, b⟩ := x
    by_cases hab : l = a
    · subst hab
      exact absurd (List.mem_cons_self (l, b) xs) (h b)
    · have hbeq : (l == a) = false := beq_eq_false_iff_ne.mpr hab
      have htail : List.lookup l xs = none :=
        ih (fun t ht => h t (List.mem_cons_of_mem _ ht))
      simp [List.lookup, hbeq, htail]

theorem mem_languagesNeedingStep {st : Store} {step : StepName} {langs : List String}
    {l : String} :
    l ∈ languagesNeedingStep st step langs ↔
      l ∈ langs ∧ (st.checkpoints step l).isNone := by
  simp [languagesNeedingStep, List.mem_filter]

theorem loadStepResults_mem {st : Store} {step : StepName} {langs : List String}
    {l : String} {t : TableJSON} (h : (l, t) ∈ loadStepResults st step langs) :
    l ∈ langs ∧ ∃ j, st.checkpoints step l = some j ∧ j.truthy = true ∧
      TableJSON.model_validate j = some t := by
  simp only [loadStepResults, List.mem_filterMap] at h
  obtain ⟨a, ha, hmk⟩ := h
  rcases hck : st.checkpoints step a with _ | j
  · rw [hck] at hmk; simp at hmk
  · rw [hck] at hmk
    by_cases htr : j.truthy
    · simp only [htr, if_true] at hmk
      rcases hv : TableJSON.model_validate j with _ | tt
      · rw [hv] at hmk; simp at hmk
      · rw [hv] at hmk
        simp only [Option.map_some', Option.some.injEq, Prod.mk.injEq] at hmk
        obtain ⟨rfl, rfl⟩ := hmk
        exact ⟨ha, j, hck, htr, hv⟩
    · simp [htr] at hmk


theorem saveCheckpoint_checkpoints_ne {st : Store} {step : StepName} {lang : String}
    {j : Json} {s : StepName} {l : String} (h : ¬(s = step ∧ l = lang)) :
    (saveCheckpoint st step lang j).checkpoints s l = st.checkpoints s l := by
  simp [saveCheckpoint, h]

theorem saveCheckpoint_finalOutputs (st : Store) (step : StepName) (lang : String)
    (j : Json) : (saveCheckpoint st step lang j).finalOutputs = st.finalOutputs := rfl

theorem saveMany_checkpoints_ne {step : StepName} {s : StepName} {l : String}
    {items : List (String × TableJSON)} {st : Store}
    (h : s ≠ step ∨ ∀ t : TableJSON, (l, t) ∉ items) :
    (saveMany st step items).checkpoints s l = st.checkpoints s l := by
  induction items generalizing st with
  | nil => rfl
  | cons it items ih =>
    obtain ⟨a, b⟩ := it
    have hstep : (saveMany st step ((a, b) :: items)) =
        saveMany (saveCheckpoint st step a b.model_dump) step items := rfl
    rw [hstep]
    have hne : ¬(s = step ∧ l = a) := by
      rcases h with h | h
      · exact fun hc => h hc.1
      · intro hc
        exact h b (hc.2 ▸ List.mem_cons_self (a, b) items)
    rw [ih (h.imp_right (fun hh t ht => hh t (List.mem_cons_of_mem _ ht)))]
    exact saveCheckpoint_checkpoints_ne hne

theorem saveMany_finalOutputs {step : StepName} {items : List (String × TableJSON)}
    {st : Store} : (saveMany st step items).finalOutputs = st.finalOutputs := by
  induction items generalizing st with
  | nil => rfl
  | cons it items ih => exact ih

theorem step1Run_checkpoints_ne {ctx : PipeCtx} {st : Store} {remaining : List String}
    {s : StepName} {l : String} (h : s ≠ .step1) :
    (step1Run ctx st remaining).1.checkpoints s l = st.checkpoints s l := by
  simp only [step1Run]
  split
  · rfl
  · rw [saveMany_checkpoints_ne (Or.inl h), saveMany_checkpoints_ne (Or.inl h)]

theorem step1Run_finalOutputs {ctx : PipeCtx} {st : Store} {remaining : List String} :
    (step1Run ctx st remaining).1.finalOutputs = st.finalOutputs := by
  simp only [step1Run]
  split
  · rfl
  · rw [saveMany_finalOutputs, saveMany_finalOutputs]

theorem seqStepRun_checkpoints_ne {ctx : PipeCtx} {st : Store} {step : StepName}
    {tag : CallTag} {cands : List String} {s : StepName} {l : String} (h : s ≠ step) :
    (seqStepRun ctx st step tag cands).1.checkpoints s l = st.checkpoints s l := by
  simp only [seqStepRun]
  rw [saveMany_checkpoints_ne (Or.inl h)]

theorem seqStepRun_finalOutputs {ctx : PipeCtx} {st : Store} {step : StepName}
    {tag : CallTag} {cands : List String} :
    (seqStepRun ctx st step tag cands).1.finalOutputs = st.finalOutputs := by
  simp only [seqStepRun]
  rw [saveMany_finalOutputs]

theorem step1Run_calls_mem {ctx : PipeCtx} {st : Store} {remaining : List String}
    {c : Call} (h : c ∈ (step1Run ctx st remaining).2.2) :
    (c.tag = .vllmStep1 ∨ c.tag = .geminiStep1) ∧ c.lang ∈ remaining ∧
      (st.checkpoints .step1 c.lang).isNone := by
  simp only [step1Run] at h
  split at h
  · simp at h
  · simp only [List.mem_append, List.mem_map] at h
    rcases h with ⟨l, hl, rfl⟩ | ⟨l, hl, rfl⟩
    · have := mem_languagesNeedingStep.mp hl
      exact ⟨Or.inl rfl, this.1, this.2⟩
    · have hl2 := List.mem_of_mem_filter hl
      have := mem_languagesNeedingStep.mp hl2
      exact ⟨Or.inr rfl, this.1, this.2⟩

theorem seqStepRun_calls_mem {ctx : PipeCtx} {st : Store} {step : StepName}
    {tag : CallTag} {cands : List String} {c : Call}
    (h : c ∈ (seqStepRun ctx st step tag cands).2.2) :
    c.tag = tag ∧ c.lang ∈ cands ∧ (st.checkpoints step c.lang).isNone := by
  simp only [seqStepRun, List.mem_map] at h
  obtain ⟨l, hl, rfl⟩ := h
  have := mem_languagesNeedingStep.mp hl
  exact ⟨rfl, this.1, this.2⟩

theorem mem_remainingLanguages {st : Store} {langs : List String} {l : String} :
    l ∈ remainingLanguages st langs ↔ l ∈ langs ∧ st.finalOutputs l = none := by
  simp [remainingLanguages, langCompleted, List.mem_filter, Option.isSome_iff_exists,
    Option.eq_none_iff_forall_not_mem]

theorem pair_filterMap_mem {f : String → Option TableJSON} {xs : List String}
    {l : String} {t : TableJSON}
    (h : (l, t) ∈ xs.filterMap (fun a => (f a).map (fun u => (a, u)))) :
    l ∈ xs ∧ f l = some t := by
  simp only [List.mem_filterMap] at h
  obtain ⟨a, ha, hmk⟩ := h
  rcases hfa : f a with _ | tt
  · rw [hfa] at hmk; simp at hmk
  · rw [hfa] at hmk
    simp only [Option.map_some', Option.some.injEq, Prod.mk.injEq] at hmk
    obtain ⟨rfl, rfl⟩ := hmk
    exact ⟨ha, hfa⟩

theorem step1Run_results_mem {ctx : PipeCtx} {st : Store} {remaining : List String}
    {l : String} {t : TableJSON} (h : (l, t) ∈ (step1Run ctx st remaining).2.1) :
    l ∈ remaining ∧
      ((st.checkpoints .step1 l).isNone ∨
        ∃ j, st.checkpoints .step1 l = some j ∧ j.truthy = true ∧
          TableJSON.model_validate j = some t) := by
  simp only [step1Run] at h
  split at h
  · have := loadStepResults_mem h
    exact ⟨this.1, Or.inr this.2⟩
  · simp only [List.mem_append] at h
    rcases h with (h | h) | h
    · have := loadStepResults_mem h
      exact ⟨this.1, Or.inr this.2⟩
    · have := pair_filterMap_mem h
      have hm := mem_languagesNeedingStep.mp this.1
      exact ⟨hm.1, Or.inl hm.2⟩
    · have := pair_filterMap_mem h
      have hm := mem_languagesNeedingStep.mp (List.mem_of_mem_filter this.1)
      exact ⟨hm.1, Or.inl hm.2⟩

theorem seqStepRun_results_mem {ctx : PipeCtx} {st : Store} {step : StepName}
    {tag : CallTag} {cands : List String} {l : String} {t : TableJSON}
    (h : (l, t) ∈ (seqStepRun ctx st step tag cands).2.1) : l ∈ cands := by
  simp only [seqStepRun, List.mem_append] at h
  rcases h with h | h
  · exact (loadStepResults_mem h).1
  · exact (mem_languagesNeedingStep.mp (pair_filterMap_mem h).1).1

theorem step1Run_checkpoints_step1_some {ctx : PipeCtx} {st : Store}
    {remaining : List String} {l : String} (h : (st.checkpoints .step1 l).isSome) :
    (step1Run ctx st remaining).1.checkpoints .step1 l = st.checkpoints .step1 l := by
  simp only [step1Run]
  split
  · rfl
  · have hnone : ∀ u : TableJSON, ¬ (st.checkpoints .step1 l).isNone := by
      intro u hn
      rw [Option.isNone_iff_eq_none] at hn
      rw [hn] at h; simp at h
    rw [saveMany_checkpoints_ne (Or.inr ?_), saveMany_checkpoints_ne (Or.inr ?_)]
    · intro t ht
      exact hnone t (mem_languagesNeedingStep.mp (pair_filterMap_mem ht).1).2
    · intro t ht
      exact hnone t
        (mem_languagesNeedingStep.mp (List.mem_of_mem_filter (pair_filterMap_mem ht).1)).2

theorem step4_fold_checkpoints {ctx : PipeCtx} {back : List (String × TableJSON)} :
    ∀ (refined : List (String × TableJSON))
      (acc : Store × List Verdict × List String × List String),
      (refined.foldl (step4Body ctx back) acc).1.checkpoints = acc.1.checkpoints := by
  intro refined
  induction refined with
  | nil => intro acc; rfl
  | cons p rest ih =>
    intro acc
    rw [List.foldl_cons, ih]
    obtain ⟨st, verdicts, kept, dropped⟩ := acc
    obtain ⟨a, rtab⟩ := p
    simp only [step4Body]
    split
    · rfl
    · split
      · rfl
      · split
        · rfl
        · rfl

theorem step4_fold_finalOutputs_ne {ctx : PipeCtx} {back : List (String × TableJSON)}
    {l : String} :
    ∀ (refined : List (String × TableJSON))
      (acc : Store × List Verdict × List String × List String),
      l ∉ refined.map Prod.fst →
      (refined.foldl (step4Body ctx back) acc).1.finalOutputs l = acc.1.finalOutputs l := by
  intro refined
  induction refined with
  | nil => intro acc _; rfl
  | cons p rest ih =>
    intro acc h
    simp only [List.map_cons, List.mem_cons] at h
    push_neg at h
    rw [List.foldl_cons, ih _ h.2]
    obtain ⟨st, verdicts, kept, dropped⟩ := acc
    obtain ⟨a, rtab⟩ := p
    simp only [step4Body]
    split
    · rfl
    · split
      · rfl
      · split
        · simp [saveFinal, h.1]
        · rfl

theorem step4_fold_new_mem {ctx : PipeCtx} {back : List (String × TableJSON)} :
    ∀ (refined : List (String × TableJSON))
      (acc : Store × List Verdict × List String × List String),
      (∀ v ∈ (refined.foldl (step4Body ctx back) acc).2.1,
        v ∈ acc.2.1 ∨ v.lang ∈ refined.map Prod.fst) ∧
      (∀ l ∈ (refined.foldl (step4Body ctx back) acc).2.2.1,
        l ∈ acc.2.2.1 ∨ l ∈ refined.map Prod.fst) ∧
      (∀ l ∈ (refined.foldl (step4Body ctx back) acc).2.2.2,
        l ∈ acc.2.2.2 ∨ l ∈ refined.map Prod.fst) := by
  intro refined
  induction refined with
  | nil =>
    intro acc
    exact ⟨fun v hv => Or.inl hv, fun l hl => Or.inl hl, fun l hl => Or.inl hl⟩
  | cons p rest ih =>
    intro acc
    rw [List.foldl_cons]
    obtain ⟨hv, hk, hd⟩ := ih (step4Body ctx back acc p)
    have hbody : ∀ (P : Verdict → Prop) (Q : String → Prop),
        (∀ v ∈ (step4Body ctx back acc p).2.1, v ∈ acc.2.1 ∨ v.lang = p.1) ∧
        (∀ l ∈ (step4Body ctx back acc p).2.2.1, l ∈ acc.2.2.1 ∨ l = p.1) ∧
        (∀ l ∈ (step4Body ctx back acc p).2.2.2, l ∈ acc.2.2.2 ∨ l = p.1) := by
      intro _ _
      obtain ⟨st, verdicts, kept, dropped⟩ := acc
      obtain ⟨a, rtab⟩ := p
      simp only [step4Body]
      split
      · refine ⟨fun v hv => Or.inl hv, fun l hl => ?_, fun l hl => Or.inl hl⟩
        rcases List.mem_append.mp hl with hl | hl
        · exact Or.inl hl
        · exact Or.inr (by simpa using hl)
      · split
        · exact ⟨fun v hv => Or.inl hv, fun l hl => Or.inl hl, fun l hl => Or.inl hl⟩
        · split
          · refine ⟨fun v hv => ?_, fun l hl => ?_, fun l hl => Or.inl hl⟩
            · rcases List.mem_append.mp hv with hv | hv
              · exact Or.inl hv
              · exact Or.inr (by simpa using congrArg Verdict.lang (by simpa using hv))
            · rcases List.mem_append.mp hl with hl | hl
              · exact Or.inl hl
              · exact Or.inr (by simpa using hl)
          · refine ⟨fun v hv => ?_, fun l hl => Or.inl hl, fun l hl => ?_⟩
            · rcases List.mem_append.mp hv with hv | hv
              · exact Or.inl hv
              · exact Or.inr (by simpa using congrArg Verdict.lang (by simpa using hv))
            · rcases List.mem_append.mp hl with hl | hl
              · exact Or.inl hl
              · exact Or.inr (by simpa using hl)
    obtain ⟨hbv, hbk, hbd⟩ := hbody (fun _ => True) (fun _ => True)
    refine ⟨fun v hv' => ?_, fun l hl' => ?_, fun l hl' => ?_⟩
    · rcases hv v hv' with h | h
      · rcases hbv v h with h | h
        · exact Or.inl h
        · exact Or.inr (by simp [h])
      · exact Or.inr (by simp [h])
    · rcases hk l hl' with h | h
      · rcases hbk l h with h | h
        · exact Or.inl h
        · exact Or.inr (by simp [h])
      · exact Or.inr (by simp [h])
    · rcases hd l hl' with h | h
      · rcases hbd l h with h | h
        · exact Or.inl h
        · exact Or.inr (by simp [h])
      · exact Or.inr (by simp [h])

theorem runBatchTail_calls_mem {ctx : PipeCtx} {st1 : Store}
    {remaining successful step1Failed : List String} {calls1 : List Call} {c : Call}
    (h : c ∈ (runBatchTail ctx st1 remaining successful step1Failed calls1).calls) :
    c ∈ calls1
    ∨ (c.tag = .geminiStep2 ∧ c.lang ∈ successful ∧ (st1.checkpoints .step2 c.lang).isNone)
    ∨ (c.tag = .geminiStep3 ∧ c.lang ∈ remaining ∧ (st1.checkpoints .step3 c.lang).isNone) := by
  simp only [runBatchTail] at h
  split at h
  · exact Or.inl h
  · simp only [List.mem_append] at h
    rcases h with (h | h) | h
    · exact Or.inl h
    · obtain ⟨ht, hmem, hck⟩ := seqStepRun_calls_mem h
      exact Or.inr (Or.inl ⟨ht, hmem, hck⟩)
    · obtain ⟨ht, hmem, hck⟩ := seqStepRun_calls_mem h
      refine Or.inr (Or.inr ⟨ht, List.mem_of_mem_filter hmem, ?_⟩)
      rwa [seqStepRun_checkpoints_ne (by simp)] at hck

theorem runBatch_calls_spec {ctx : PipeCtx} {st0 : Store} {langs : List String} {c : Call}
    (h : c ∈ (runBatch ctx st0 langs).calls) :
    ((c.tag = .vllmStep1 ∨ c.tag = .geminiStep1) ∧ (st0.checkpoints .step1 c.lang).isNone)
    ∨ (c.tag = .geminiStep2 ∧ (st0.checkpoints .step2 c.lang).isNone)
    ∨ (c.tag = .geminiStep3 ∧ (st0.checkpoints .step3 c.lang).isNone) := by
  simp only [runBatch] at h
  split at h
  · simp at h
  · rcases runBatchTail_calls_mem h with h | ⟨ht, _, hck⟩ | ⟨ht, _, hck⟩
    · obtain ⟨ht, hmem, hck⟩ := step1Run_calls_mem h
      refine Or.inl ⟨ht, ?_⟩
      rwa [saveCheckpoint_checkpoints_ne (by simp)] at hck
    · refine Or.inr (Or.inl ⟨ht, ?_⟩)
      rwa [step1Run_checkpoints_ne (by simp),
        saveCheckpoint_checkpoints_ne (by simp)] at hck
    · refine Or.inr (Or.inr ⟨ht, ?_⟩)
      rwa [step1Run_checkpoints_ne (by simp),
        saveCheckpoint_checkpoints_ne (by simp)] at hck

theorem runBatchTail_step1Failed {ctx : PipeCtx} {st1 : Store}
    {remaining successful step1Failed : List String} {calls1 : List Call} :
    (runBatchTail ctx st1 remaining successful step1Failed calls1).step1Failed
      = step1Failed := by
  simp only [runBatchTail]
  split
  · rfl
  · rfl

theorem runBatchTail_excluded {ctx : PipeCtx} {st1 : Store}
    {remaining successful step1Failed : List String} {calls1 : List Call} {l : String}
    (hns : l ∉ successful) :
    (∀ c ∈ (runBatchTail ctx st1 remaining successful step1Failed calls1).calls,
      c ∈ calls1 ∨ c.lang ≠ l)
    ∧ (∀ v ∈ (runBatchTail ctx st1 remaining successful step1Failed calls1).verdicts,
        v.lang ≠ l)
    ∧ l ∉ (runBatchTail ctx st1 remaining successful step1Failed calls1).kept
    ∧ (runBatchTail ctx st1 remaining successful step1Failed calls1).store.checkpoints
        .step1 l = st1.checkpoints .step1 l
    ∧ (runBatchTail ctx st1 remaining successful step1Failed calls1).store.finalOutputs l
        = st1.finalOutputs l := by
  simp only [runBatchTail]
  split
  · exact ⟨fun c hc => Or.inl hc, fun v hv => by simp at hv, by simp, rfl, rfl⟩
  · have href : ∀ t : TableJSON,
        (l, t) ∉ (seqStepRun ctx st1 .step2 .geminiStep2 successful).2.1 :=
      fun t ht => hns (seqStepRun_results_mem ht)
    have hrefk : l ∉ ((seqStepRun ctx st1 .step2 .geminiStep2 successful).2.1).map
        Prod.fst := by
      intro hm
      obtain ⟨p, hp, he⟩ := List.mem_map.mp hm
      obtain ⟨a, b⟩ := p
      simp only at he
      subst he
      exact href b hp
    have hrlook : ((seqStepRun ctx st1 .step2 .geminiStep2 successful).2.1).lookup l
        = none := lookup_eq_none_of_forall href
    refine ⟨?_, ?_, ?_, ?_, ?_⟩
    · intro c hc
      simp only [List.mem_append] at hc
      rcases hc with (hc | hc) | hc
      · exact Or.inl hc
      · obtain ⟨-, hmem, -⟩ := seqStepRun_calls_mem hc
        exact Or.inr (fun he => hns (he ▸ hmem))
      · obtain ⟨-, hmem, -⟩ := seqStepRun_calls_mem hc
        refine Or.inr (fun he => ?_)
        have := (List.mem_filter.mp hmem).2
        rw [he, hrlook] at this
        simp at this
    · intro v hv
      rcases (step4_fold_new_mem _ _).1 v hv with h | h
      · simp at h
      · exact fun he => hrefk (he ▸ h)
    · intro hk
      rcases (step4_fold_new_mem _ _).2.1 l hk with h | h
      · simp at h
      · exact hrefk h
    · dsimp only
      have e1 : ∀ (st : Store) (refined back : List (String × TableJSON)),
          (step4Run ctx st refined back).1.checkpoints = st.checkpoints :=
        fun st refined back => step4_fold_checkpoints refined (st, [], [], [])
      rw [e1, seqStepRun_checkpoints_ne (by simp), seqStepRun_checkpoints_ne (by simp)]
    · dsimp only
      have e2 : ∀ (st : Store) (back : List (String × TableJSON)),
          (step4Run ctx st (seqStepRun ctx st1 .step2 .geminiStep2 successful).2.1
            back).1.finalOutputs l = st.finalOutputs l :=
        fun st back => step4_fold_finalOutputs_ne _ (st, [], [], []) hrefk
      rw [e2, seqStepRun_finalOutputs, seqStepRun_finalOutputs]

theorem calculateBleu_nonneg {sb : List String → List String → ℚ}
    (h : ∀ r c, 0 ≤ sb r c) (a b : Json) : 0 ≤ calculateBleu sb a b := by
  simp only [calculateBleu]
  split
  · exact le_refl 0
  · exact h _ _

theorem step4_fold_keep {ctx : PipeCtx} {back : List (String × TableJSON)}
    (hthr : ctx.threshold = 0)
    (hbleu : ∀ r c, 0 ≤ ctx.sentenceBleu r c) :
    ∀ (refined : List (String × TableJSON))
      (acc : Store × List Verdict × List String × List String),
      (refined.map Prod.fst).Nodup →
      (∀ p ∈ refined, acc.1.finalOutputs p.1 = none) →
      ((refined.foldl (step4Body ctx back) acc).2.2.2 = acc.2.2.2)
      ∧ (∀ v ∈ (refined.foldl (step4Body ctx back) acc).2.1,
          v ∈ acc.2.1 ∨ v.keep = true)
      ∧ (∀ p ∈ refined, (back.lookup p.1).isSome →
          (refined.foldl (step4Body ctx back) acc).1.finalOutputs p.1
            = some p.2.model_dump) := by
  intro refined
  induction refined with
  | nil =>
    intro acc _ _
    exact ⟨rfl, fun v hv => Or.inl hv, fun p hp => absurd hp (List.not_mem_nil p)⟩
  | cons q rest ih =>
    intro acc hnd hfresh
    obtain ⟨a, rtab⟩ := q
    obtain ⟨st, verdicts, kept, dropped⟩ := acc
    rw [List.foldl_cons]
    have hf0 : st.finalOutputs a = none := hfresh (a, rtab) (List.mem_cons_self _ _)
    have hcompl : langCompleted st a = false := by
      simp [langCompleted, hf0]
    obtain ⟨hnda, hnd'⟩ := List.nodup_cons.mp
      (by rw [List.map_cons] at hnd; exact hnd)
    rcases hba : back.lookup a with _ | btab
    · have hbody : step4Body ctx back (st, verdicts, kept, dropped) (a, rtab)
          = (st, verdicts, kept, dropped) := by
        simp [step4Body, hcompl, hba]
      rw [hbody]
      obtain ⟨hd, hv, hfin⟩ := ih (st, verdicts, kept, dropped) hnd'
        (fun p hp => hfresh p (List.mem_cons_of_mem _ hp))
      refine ⟨hd, hv, ?_⟩
      intro p hp hbs
      rcases List.mem_cons.mp hp with rfl | hp'
      · rw [hba] at hbs; simp at hbs
      · exact hfin p hp' hbs
    · have hkeep : gateDecision (calculateBleu ctx.sentenceBleu ctx.orig btab.model_dump)
          ctx.threshold = true := by
        rw [hthr]
        exact decide_eq_true (calculateBleu_nonneg hbleu _ _)
      have hbody : step4Body ctx back (st, verdicts, kept, dropped) (a, rtab)
          = (saveFinal st a rtab.model_dump,
             verdicts ++ [⟨a, calculateBleu ctx.sentenceBleu ctx.orig btab.model_dump,
               ctx.threshold, true⟩], kept ++ [a], dropped) := by
        simp [step4Body, hcompl, hba, hkeep]
      rw [hbody]
      have hfresh' : ∀ p ∈ rest,
          (saveFinal st a rtab.model_dump).finalOutputs p.1 = none := by
        intro p hp
        have hne : p.1 ≠ a := by
          intro he
          apply hnda
          rw [← he]
          exact List.mem_map.mpr ⟨p, hp, rfl⟩
        have := hfresh p (List.mem_cons_of_mem _ hp)
        simpa [saveFinal, hne] using this
      obtain ⟨hd, hv, hfin⟩ := ih (saveFinal st a rtab.model_dump,
        verdicts ++ [⟨a, calculateBleu ctx.sentenceBleu ctx.orig btab.model_dump,
          ctx.threshold, true⟩], kept ++ [a], dropped) hnd' hfresh'
      refine ⟨hd, ?_, ?_⟩
      · intro v hv'
        rcases hv v hv' with h | h
        · rcases List.mem_append.mp h with h | h
          · exact Or.inl h
          · have : v = ⟨a, calculateBleu ctx.sentenceBleu ctx.orig btab.model_dump,
                ctx.threshold, true⟩ := by simpa using h
            exact Or.inr (by rw [this])
        · exact Or.inr h
      · intro p hp hbs
        rcases List.mem_cons.mp hp with rfl | hp'
        · rw [step4_fold_finalOutputs_ne _ _ hnda]
          simp [saveFinal]
        · exact hfin p hp' hbs

theorem translateLang_eq {lang : String} (hen : lang ≠ "en")
    (items : List (QAPair × Option TranslatedQA)) :
    translateLang lang items
      = (items.filterMap (fun it => (it.2).map (fun t =>
          { it.1 with question := t.translated_question,
                      answer := t.translated_answer })),
         (items.filter (fun it => it.2.isNone)).length) := by
  suffices haux : ∀ (its : List (QAPair × Option TranslatedQA)) (acc : List QAPair × Nat),
      its.foldl (fun acc it =>
        match processQAPair lang it.1 it.2 with
        | (some p, _) => (acc.1 ++ [p], acc.2)
        | (none, _) => (acc.1, acc.2 + 1)) acc
      = (acc.1 ++ its.filterMap (fun it => (it.2).map (fun t =>
          { it.1 with question := t.translated_question,
                      answer := t.translated_answer })),
         acc.2 + (its.filter (fun it => it.2.isNone)).length) by
    rw [translateLang, haux]
    simp
  intro its
  induction its with
  | nil => intro acc; simp
  | cons q rest ih =>
    intro acc
    obtain ⟨pair, tr⟩ := q
    rcases tr with _ | t
    · have hb : processQAPair lang pair none = (none, true) := by
        simp [processQAPair, hen]
      rw [List.foldl_cons]
      simp only [hb]
      rw [ih]
      simp [Nat.add_assoc, Nat.add_comm 1]
    · have hb : processQAPair lang pair (some t)
          = (some { pair with question := t.translated_question,
                              answer := t.translated_answer }, true) := by
        simp [processQAPair, hen]
      rw [List.foldl_cons]
      simp only [hb]
      rw [ih]
      simp

/-! ### APIKeyRotator state lemmas -/

theorem canMakeRequest_state {t : ℚ} {s : RotState} {k : Nat} :
    (canMakeRequest t s k).1 = if s.quota k = true then s else cleanOld t s k := by
  simp only [canMakeRequest]
  split
  · rfl
  · rfl

theorem getWaitTime_state {t : ℚ} {s : RotState} {k : Nat} :
    (getWaitTime t s k).1 = cleanOld t s k := by
  simp only [getWaitTime]
  split
  · rfl
  · split
    · rfl
    · rfl

theorem canMakeRequest_quota {t : ℚ} {s : RotState} {k : Nat} :
    ((canMakeRequest t s k).1).quota = s.quota := by
  rw [canMakeRequest_state]
  split
  · rfl
  · rfl

theorem canMakeRequest_current {t : ℚ} {s : RotState} {k : Nat} :
    ((canMakeRequest t s k).1).current = s.current := by
  rw [canMakeRequest_state]
  split
  · rfl
  · rfl

theorem canMakeRequest_sizes {t : ℚ} {s : RotState} {k : Nat} :
    ((canMakeRequest t s k).1).numKeys = s.numKeys
      ∧ ((canMakeRequest t s k).1).rpm = s.rpm := by
  rw [canMakeRequest_state]
  split
  · exact ⟨rfl, rfl⟩
  · exact ⟨rfl, rfl⟩

theorem rotateScan_fields {t : ℚ} :
    ∀ (fuel : Nat) (s : RotState) (minW : Option ℚ) (best : Nat),
      ((rotateScan t fuel s minW best).1).numKeys = s.numKeys
      ∧ ((rotateScan t fuel s minW best).1).rpm = s.rpm
      ∧ ((rotateScan t fuel s minW best).1).quota = s.quota := by
  intro fuel
  induction fuel with
  | zero => intro s minW best; exact ⟨rfl, rfl, rfl⟩
  | succ fuel ih =>
    intro s minW best
    simp only [rotateScan]
    split
    · exact ih _ _ _
    · split
      · rw [canMakeRequest_state]
        split
        · exact ⟨rfl, rfl, rfl⟩
        · exact ⟨rfl, rfl, rfl⟩
      · split
        · obtain ⟨h1, h2, h3⟩ := ih ((getWaitTime t (canMakeRequest t
            { s with current := (s.current + 1) % s.numKeys }
              ((s.current + 1) % s.numKeys)).1 ((s.current + 1) % s.numKeys)).1) _ _
          rw [h1, h2, h3, getWaitTime_state]
          simp only [cleanOld]
          rw [canMakeRequest_quota]
          obtain ⟨h4, h5⟩ := canMakeRequest_sizes (t := t)
            (s := { s with current := (s.current + 1) % s.numKeys })
            (k := (s.current + 1) % s.numKeys)
          rw [h4, h5]
          exact ⟨rfl, rfl, rfl⟩
        · obtain ⟨h1, h2, h3⟩ := ih ((getWaitTime t (canMakeRequest t
            { s with current := (s.current + 1) % s.numKeys }
              ((s.current + 1) % s.numKeys)).1 ((s.current + 1) % s.numKeys)).1) _ _
          rw [h1, h2, h3, getWaitTime_state]
          simp only [cleanOld]
          rw [canMakeRequest_quota]
          obtain ⟨h4, h5⟩ := canMakeRequest_sizes (t := t)
            (s := { s with current := (s.current + 1) % s.numKeys })
            (k := (s.current + 1) % s.numKeys)
          rw [h4, h5]
          exact ⟨rfl, rfl, rfl⟩

theorem waitOrRotate_quota {t : ℚ} {s : RotState} {r : RotState × ℚ × AcquireOutcome}
    (h : waitOrRotate t s = some r) : r.1.quota = s.quota := by
  simp only [waitOrRotate] at h
  split at h
  · exact absurd h (by simp)
  · split at h
    · injection h with h
      rw [← h]
      exact canMakeRequest_quota
    · rcases heq : rotateScan t s.numKeys (canMakeRequest t s s.current).1 none s.current
        with ⟨s2, res⟩
      rw [heq] at h
      have h3 := (rotateScan_fields (t := t) s.numKeys
        (canMakeRequest t s s.current).1 none s.current).2.2
      rw [heq] at h3
      simp only at h3
      rcases res with _ | pr
      · simp only at h
        injection h with h
        rw [← h]
        show s2.quota = s.quota
        rw [h3, canMakeRequest_quota]
      · obtain ⟨minW, best⟩ := pr
        simp only at h
        split at h
        · injection h with h
          rw [← h]
          show ((getWaitTime t { s2 with current := best } best).1).quota = s.quota
          rw [getWaitTime_state]
          show s2.quota = s.quota
          rw [h3, canMakeRequest_quota]
        · injection h with h
          rw [← h]
          show ((getWaitTime t { s2 with current := best } best).1).quota = s.quota
          rw [getWaitTime_state]
          show s2.quota = s.quota
          rw [h3, canMakeRequest_quota]

theorem rotateOnErrorLoop_quota :
    ∀ (fuel : Nat) (s r : RotState), rotateOnErrorLoop fuel s = some r →
      r.quota = s.quota ∧ r.numKeys = s.numKeys ∧ r.rpm = s.rpm ∧ r.hist = s.hist := by
  intro fuel
  induction fuel with
  | zero => intro s r h; exact absurd h (by simp [rotateOnErrorLoop])
  | succ fuel ih =>
    intro s r h
    simp only [rotateOnErrorLoop] at h
    split at h
    · exact ih { s with current := (s.current + 1) % s.numKeys } r h
    · injection h with h
      rw [← h]
      exact ⟨rfl, rfl, rfl, rfl⟩

theorem dropWhile_idem {p : ℚ → Bool} :
    ∀ l : List ℚ, (l.dropWhile p).dropWhile p = l.dropWhile p := by
  intro l
  induction l with
  | nil => rfl
  | cons a l ih =>
    by_cases hp : p a
    · simp [List.dropWhile_cons, hp, ih]
    · simp [List.dropWhile_cons, hp]

theorem clean_idem {t : ℚ} {l : List ℚ} : clean t (clean t l) = clean t l :=
  dropWhile_idem l

theorem mem_of_mem_clean {t : ℚ} {l : List ℚ} {a : ℚ} (h : a ∈ clean t l) : a ∈ l :=
  (List.dropWhile_sublist _).subset h

theorem clean_fixed_head {t : ℚ} {o : ℚ} {rest : List ℚ}
    (h : clean t (o :: rest) = o :: rest) : ¬ o < t - 60 := by
  intro ho
  have he : clean t (o :: rest) = clean t rest := by
    simp [clean, List.dropWhile_cons, ho]
  rw [he] at h
  have hlen : (clean t rest).length ≤ rest.length :=
    (List.dropWhile_sublist _).length_le
  rw [h] at hlen
  simp at hlen

theorem cleanOld_hist_self {t : ℚ} {s : RotState} {k : Nat} :
    (cleanOld t s k).hist k = clean t (s.hist k) := by
  simp [cleanOld]

theorem cleanOld_hist_ne {t : ℚ} {s : RotState} {k k2 : Nat} (h : k2 ≠ k) :
    (cleanOld t s k).hist k2 = s.hist k2 := by
  simp [cleanOld, h]

theorem StInv_cleanOld {t : ℚ} {s : RotState} {k : Nat} (h : StInv t s) :
    StInv t (cleanOld t s k) := by
  obtain ⟨hb, he⟩ := h
  constructor
  · intro k2
    by_cases hk : k2 = k
    · subst hk
      rw [cleanOld_hist_self, clean_idem]
      exact hb k2
    · rw [cleanOld_hist_ne hk]
      exact hb k2
  · intro k2 ts hts
    by_cases hk : k2 = k
    · subst hk
      rw [cleanOld_hist_self] at hts
      exact he k2 ts (mem_of_mem_clean hts)
    · rw [cleanOld_hist_ne hk] at hts
      exact he k2 ts hts

theorem StInv_canMakeRequest {t : ℚ} {s : RotState} {k : Nat} (h : StInv t s) :
    StInv t (canMakeRequest t s k).1 := by
  rw [canMakeRequest_state]
  split
  · exact h
  · exact StInv_cleanOld h

theorem StInv_getWaitTime {t : ℚ} {s : RotState} {k : Nat} (h : StInv t s) :
    StInv t (getWaitTime t s k).1 := by
  rw [getWaitTime_state]
  exact StInv_cleanOld h

theorem canMakeRequest_snd_quota {t : ℚ} {s : RotState} {k : Nat}
    (hq : s.quota k = true) : (canMakeRequest t s k).2 = false := by
  simp [canMakeRequest, hq]

theorem canMakeRequest_snd {t : ℚ} {s : RotState} {k : Nat}
    (hq : s.quota k = false) :
    (canMakeRequest t s k).2 = decide ((clean t (s.hist k)).length < s.rpm) := by
  simp only [canMakeRequest, hq]
  rw [if_neg (by simp)]
  simp [cleanOld]

theorem canMakeRequest_true_elim {t : ℚ} {s : RotState} {k : Nat}
    (h : (canMakeRequest t s k).2 = true) :
    s.quota k = false ∧ (clean t (s.hist k)).length < s.rpm := by
  rcases hq : s.quota k with _ | _
  · rw [canMakeRequest_snd hq, decide_eq_true_eq] at h
    exact ⟨rfl, h⟩
  · rw [canMakeRequest_snd_quota hq] at h
    exact absurd h (by simp)

theorem canMakeRequest_false_elim {t : ℚ} {s : RotState} {k : Nat}
    (hq : s.quota k = false) (h : (canMakeRequest t s k).2 = false) :
    s.rpm ≤ (clean t (s.hist k)).length := by
  rw [canMakeRequest_snd hq, decide_eq_false_iff_not] at h
  omega

theorem canMakeRequest_true_post {t : ℚ} {s : RotState} {k : Nat}
    (h : (canMakeRequest t s k).2 = true) :
    (canMakeRequest t (canMakeRequest t s k).1 k).2 = true := by
  obtain ⟨hq, hlen⟩ := canMakeRequest_true_elim h
  have hstate : (canMakeRequest t s k).1 = cleanOld t s k := by
    rw [canMakeRequest_state, if_neg (by simp [hq])]
  rw [hstate, canMakeRequest_snd (show (cleanOld t s k).quota k = false from hq),
    decide_eq_true_eq, cleanOld_hist_self, clean_idem]
  exact hlen

theorem hasAvailableKeys_true {s : RotState} {k : Nat} (hk : k < s.numKeys)
    (hq : s.quota k = false) : hasAvailableKeys s = true := by
  simp only [hasAvailableKeys]
  have hsub : List.Sublist ((List.range s.numKeys).filter (fun k => s.quota k))
      (List.range s.numKeys) := List.filter_sublist _
  have hle : ((List.range s.numKeys).filter (fun k => s.quota k)).length
      ≤ s.numKeys := by
    simpa [List.length_range] using hsub.length_le
  rcases Nat.lt_or_ge (((List.range s.numKeys).filter (fun k => s.quota k)).length)
    s.numKeys with hlt | hge
  · simpa using hlt
  · exfalso
    have heq : ((List.range s.numKeys).filter (fun k => s.quota k)).length
        = (List.range s.numKeys).length := by
      simp only [List.length_range]
      omega
    have hfeq := List.Sublist.eq_of_length hsub heq
    have hkmem : k ∈ (List.range s.numKeys).filter (fun k => s.quota k) := by
      rw [hfeq]
      exact List.mem_range.mpr hk
    have hqk := (List.mem_filter.mp hkmem).2
    rw [hq] at hqk
    simp at hqk

theorem exists_shift_mod {N c k : Nat} (hN : 0 < N) (hk : k < N) :
    ∃ j, 1 ≤ j ∧ j ≤ N ∧ (c + j) % N = k := by
  have hr : (c + 1) % N < N := Nat.mod_lt _ hN
  have hdiv := Nat.div_add_mod (c + 1) N
  refine ⟨(k + N - (c + 1) % N) % N + 1, by omega, ?_, ?_⟩
  · have := Nat.mod_lt (k + N - (c + 1) % N) hN
    omega
  · have h1 : c + ((k + N - (c + 1) % N) % N + 1)
        = (c + 1) + (k + N - (c + 1) % N) % N := by omega
    rw [h1, Nat.add_mod_mod]
    have h2 : (c + 1) + (k + N - (c + 1) % N)
        = k + N * ((c + 1) / N) + N := by omega
    rw [h2, show k + N * ((c + 1) / N) + N = k + N * ((c + 1) / N + 1) by ring,
      Nat.add_mul_mod_self_left, Nat.mod_eq_of_lt hk]

theorem BestInv_cleanOld {t : ℚ} {s : RotState} {k : Nat} {mw : Option ℚ} {b : Nat}
    (h : BestInv t s mw b) : BestInv t (cleanOld t s k) mw b := by
  intro w hw
  obtain ⟨h1, h2, h3⟩ := h w hw
  by_cases hk : b = k
  · subst hk
    refine ⟨h1, ?_, ?_⟩
    · rw [cleanOld_hist_self, clean_idem]
    · rw [cleanOld_hist_self, h2]
      exact h3
  · refine ⟨h1, ?_, ?_⟩
    · rw [cleanOld_hist_ne hk]
      exact h2
    · rw [cleanOld_hist_ne hk]
      exact h3

theorem BestInv_canMakeRequest {t : ℚ} {s : RotState} {k : Nat} {mw : Option ℚ}
    {b : Nat} (h : BestInv t s mw b) : BestInv t (canMakeRequest t s k).1 mw b := by
  rw [canMakeRequest_state]
  split
  · exact h
  · exact BestInv_cleanOld h

theorem BestInv_getWaitTime {t : ℚ} {s : RotState} {k : Nat} {mw : Option ℚ}
    {b : Nat} (h : BestInv t s mw b) : BestInv t (getWaitTime t s k).1 mw b := by
  rw [getWaitTime_state]
  exact BestInv_cleanOld h

theorem rotateScan_spec {t : ℚ} :
    ∀ (fuel : Nat) (s : RotState) (minW : Option ℚ) (best : Nat),
      StInv t s → BestInv t s minW best →
      (∀ r, rotateScan t fuel s minW best = (r, none) →
        (canMakeRequest t r r.current).2 = true)
      ∧ (∀ r minW' best',
          rotateScan t fuel s minW best = (r, some (minW', best')) →
          StInv t r ∧ BestInv t r minW' best'
          ∧ (minW' = none → minW = none ∧
              ∀ j, 1 ≤ j → j ≤ fuel →
                s.quota ((s.current + j) % s.numKeys) = true)) := by
  intro fuel
  induction fuel with
  | zero =>
    intro s minW best hInv hBest
    constructor
    · intro r h
      simp only [rotateScan] at h
      injection h with h1 h2
      exact absurd h2 (by simp)
    · intro r minW' best' h
      simp only [rotateScan] at h
      injection h with h1 h2
      injection h2 with h2
      injection h2 with h3 h4
      subst h1
      subst h3
      subst h4
      refine ⟨hInv, hBest, ?_⟩
      intro hmw
      exact ⟨hmw, fun j hj1 hj0 => absurd hj0 (by omega)⟩
  | succ fuel ih =>
    intro s minW best hInv hBest
    constructor
    · intro r h
      simp only [rotateScan] at h
      split at h
      · exact (ih { s with current := (s.current + 1) % s.numKeys } minW best
          hInv hBest).1 r h
      · split at h
        · rename_i hq hcb
          injection h with h1 h2
          subst h1
          rw [canMakeRequest_current]
          exact canMakeRequest_true_post hcb
        · rename_i hq hcb
          have hqf : s.quota ((s.current + 1) % s.numKeys) = false := by
            simpa using hq
          have hcbf : (canMakeRequest t
              { s with current := (s.current + 1) % s.numKeys }
              ((s.current + 1) % s.numKeys)).2 = false := by
            simpa using hcb
          have hcmr1 : (canMakeRequest t
              { s with current := (s.current + 1) % s.numKeys }
              ((s.current + 1) % s.numKeys)).1
              = cleanOld t { s with current := (s.current + 1) % s.numKeys }
                  ((s.current + 1) % s.numKeys) := by
            rw [canMakeRequest_state, if_neg (by simp [hqf])]
          have hg1 := getWaitTime_state (t := t)
            (s := (canMakeRequest t { s with current := (s.current + 1) % s.numKeys }
              ((s.current + 1) % s.numKeys)).1)
            (k := (s.current + 1) % s.numKeys)
          have hg1hist : ((getWaitTime t
              (canMakeRequest t { s with current := (s.current + 1) % s.numKeys }
                ((s.current + 1) % s.numKeys)).1
              ((s.current + 1) % s.numKeys)).1).hist ((s.current + 1) % s.numKeys)
              = clean t (({ s with current := (s.current + 1) % s.numKeys }
                  : RotState).hist ((s.current + 1) % s.numKeys)) := by
            rw [hg1, hcmr1, cleanOld_hist_self, cleanOld_hist_self, clean_idem]
          have hInvG : StInv t (getWaitTime t
              (canMakeRequest t { s with current := (s.current + 1) % s.numKeys }
                ((s.current + 1) % s.numKeys)).1
              ((s.current + 1) % s.numKeys)).1 :=
            StInv_getWaitTime (StInv_canMakeRequest hInv)
          have hBnew : BestInv t (getWaitTime t
              (canMakeRequest t { s with current := (s.current + 1) % s.numKeys }
                ((s.current + 1) % s.numKeys)).1
              ((s.current + 1) % s.numKeys)).1
              (some (getWaitTime t
                (canMakeRequest t { s with current := (s.current + 1) % s.numKeys }
                  ((s.current + 1) % s.numKeys)).1
                ((s.current + 1) % s.numKeys)).2)
              ((s.current + 1) % s.numKeys) := by
            intro w hw
            refine ⟨?_, ?_, ?_⟩
            · rw [hg1, hcmr1]
              exact hqf
            · rw [hg1hist, clean_idem]
            · rw [hg1hist, hg1, hcmr1]
              exact canMakeRequest_false_elim
                (s := { s with current := (s.current + 1) % s.numKeys }) hqf hcbf
          have hBkeep : BestInv t (getWaitTime t
              (canMakeRequest t { s with current := (s.current + 1) % s.numKeys }
                ((s.current + 1) % s.numKeys)).1
              ((s.current + 1) % s.numKeys)).1 minW best :=
            BestInv_getWaitTime (BestInv_canMakeRequest hBest)
          split at h
          · exact (ih _ _ _ hInvG hBnew).1 r h
          · exact (ih _ _ _ hInvG hBkeep).1 r h
    · intro r minW' best' h
      simp only [rotateScan] at h
      split at h
      · rename_i hq
        obtain ⟨hI, hB, hprop⟩ := (ih { s with current := (s.current + 1) % s.numKeys }
          minW best hInv hBest).2 r minW' best' h
        refine ⟨hI, hB, ?_⟩
        intro hmw
        obtain ⟨hmw0, hall⟩ := hprop hmw
        refine ⟨hmw0, ?_⟩
        intro j hj1 hjf
        by_cases hj : j = 1
        · subst hj
          exact hq
        · have hall1 := hall (j - 1) (by omega) (by omega)
          have hmod : ((s.current + 1) % s.numKeys + (j - 1)) % s.numKeys
              = (s.current + j) % s.numKeys := by
            rw [Nat.mod_add_mod]
            congr 1
            omega
          rw [← hmod]
          exact hall1
      · split at h
        · injection h with h1 h2
          exact absurd h2 (by simp)
        · rename_i hq hcb
          have hqf : s.quota ((s.current + 1) % s.numKeys) = false := by
            simpa using hq
          have hcbf : (canMakeRequest t
              { s with current := (s.current + 1) % s.numKeys }
              ((s.current + 1) % s.numKeys)).2 = false := by
            simpa using hcb
          have hcmr1 : (canMakeRequest t
              { s with current := (s.current + 1) % s.numKeys }
              ((s.current + 1) % s.numKeys)).1
              = cleanOld t { s with current := (s.current + 1) % s.numKeys }
                  ((s.current + 1) % s.numKeys) := by
            rw [canMakeRequest_state, if_neg (by simp [hqf])]
          have hg1 := getWaitTime_state (t := t)
            (s := (canMakeRequest t { s with current := (s.current + 1) % s.numKeys }
              ((s.current + 1) % s.numKeys)).1)
            (k := (s.current + 1) % s.numKeys)
          have hg1hist : ((getWaitTime t
              (canMakeRequest t { s with current := (s.current + 1) % s.numKeys }
                ((s.current + 1) % s.numKeys)).1
              ((s.current + 1) % s.numKeys)).1).hist ((s.current + 1) % s.numKeys)
              = clean t (({ s with current := (s.current + 1) % s.numKeys }
                  : RotState).hist ((s.current + 1) % s.numKeys)) := by
            rw [hg1, hcmr1, cleanOld_hist_self, cleanOld_hist_self, clean_idem]
          have hInvG : StInv t (getWaitTime t
              (canMakeRequest t { s with current := (s.current + 1) % s.numKeys }
                ((s.current + 1) % s.numKeys)).1
              ((s.current + 1) % s.numKeys)).1 :=
            StInv_getWaitTime (StInv_canMakeRequest hInv)
          have hBnew : BestInv t (getWaitTime t
              (canMakeRequest t { s with current := (s.current + 1) % s.numKeys }
                ((s.current + 1) % s.numKeys)).1
              ((s.current + 1) % s.numKeys)).1
              (some (getWaitTime t
                (canMakeRequest t { s with current := (s.current + 1) % s.numKeys }
                  ((s.current + 1) % s.numKeys)).1
                ((s.current + 1) % s.numKeys)).2)
              ((s.current + 1) % s.numKeys) := by
            intro w hw
            refine ⟨?_, ?_, ?_⟩
            · rw [hg1, hcmr1]
              exact hqf
            · rw [hg1hist, clean_idem]
            · rw [hg1hist, hg1, hcmr1]
              exact canMakeRequest_false_elim
                (s := { s with current := (s.current + 1) % s.numKeys }) hqf hcbf
          have hBkeep : BestInv t (getWaitTime t
              (canMakeRequest t { s with current := (s.current + 1) % s.numKeys }
                ((s.current + 1) % s.numKeys)).1
              ((s.current + 1) % s.numKeys)).1 minW best :=
            BestInv_getWaitTime (BestInv_canMakeRequest hBest)
          split at h
          · obtain ⟨hI, hB, hprop⟩ := (ih _ _ _ hInvG hBnew).2 r minW' best' h
            refine ⟨hI, hB, ?_⟩
            intro hmw
            exact absurd (hprop hmw).1 (by simp)
          · rename_i hbet
            obtain ⟨hI, hB, hprop⟩ := (ih _ _ _ hInvG hBkeep).2 r minW' best' h
            refine ⟨hI, hB, ?_⟩
            intro hmw
            rcases hmW : minW with _ | m
            · rw [hmW] at hbet
              simp at hbet
            · rw [hmW] at hprop
              exact absurd ((hprop hmw).1) (by simp)

theorem getWaitTime_snd_congr {t : ℚ} {s u : RotState} {k : Nat}
    (hh : clean t (s.hist k) = clean t (u.hist k)) (hr : s.rpm = u.rpm) :
    (getWaitTime t s k).2 = (getWaitTime t u k).2 := by
  simp only [getWaitTime]
  rw [cleanOld_hist_self, cleanOld_hist_self, hh]
  have hr2 : (cleanOld t s k).rpm = (cleanOld t u k).rpm := hr
  rw [hr2]
  split
  · rfl
  · split
    · rfl
    · rfl

theorem getWaitTime_snd_cleanOld {t : ℚ} {s : RotState} {j k : Nat} :
    (getWaitTime t (cleanOld t s j) k).2 = (getWaitTime t s k).2 := by
  apply getWaitTime_snd_congr
  · by_cases hjk : k = j
    · subst hjk
      rw [cleanOld_hist_self, clean_idem]
    · rw [cleanOld_hist_ne hjk]
  · rfl

theorem getWaitTime_snd_canMakeRequest {t : ℚ} {s : RotState} {j k : Nat} :
    (getWaitTime t (canMakeRequest t s j).1 k).2 = (getWaitTime t s k).2 := by
  rw [canMakeRequest_state]
  split
  · rfl
  · exact getWaitTime_snd_cleanOld

theorem getWaitTime_snd_getWaitTime {t : ℚ} {s : RotState} {j k : Nat} :
    (getWaitTime t (getWaitTime t s j).1 k).2 = (getWaitTime t s k).2 := by
  rw [getWaitTime_state]
  exact getWaitTime_snd_cleanOld

theorem getWaitTime_snd_current {t : ℚ} {s : RotState} {x k : Nat} :
    (getWaitTime t { s with current := x } k).2 = (getWaitTime t s k).2 :=
  getWaitTime_snd_congr rfl rfl

theorem getWaitTime_snd_nonneg {t : ℚ} {s : RotState} {k : Nat} :
    0 ≤ (getWaitTime t s k).2 := by
  simp only [getWaitTime]
  split
  · exact le_refl 0
  · split
    · exact le_refl 0
    · exact le_max_left 0 _

theorem rotateScan_minspec {t : ℚ} :
    ∀ (fuel : Nat) (s : RotState) (minW : Option ℚ) (best : Nat)
      (r : RotState) (minW' : Option ℚ) (best' : Nat),
      rotateScan t fuel s minW best = (r, some (minW', best')) →
      (∀ k, r.hist k = s.hist k ∨ r.hist k = clean t (s.hist k))
      ∧ (∀ w w', minW = some w → minW' = some w' → w' ≤ w)
      ∧ (∀ j, 1 ≤ j → j ≤ fuel →
          s.quota ((s.current + j) % s.numKeys) = false →
          ∀ w', minW' = some w' →
            w' ≤ (getWaitTime t s ((s.current + j) % s.numKeys)).2)
      ∧ (∀ w', minW' = some w' →
          (minW = some w' ∧ best' = best) ∨ w' = (getWaitTime t s best').2) := by
  intro fuel
  induction fuel with
  | zero =>
    intro s minW best r minW' best' h
    simp only [rotateScan] at h
    injection h with h1 h2
    injection h2 with h2
    injection h2 with h3 h4
    subst h1
    subst h3
    subst h4
    refine ⟨fun k => Or.inl rfl, ?_, ?_, ?_⟩
    · intro w w' hw hw'
      rw [hw] at hw'
      injection hw' with he
      exact le_of_eq he.symm
    · intro j hj1 hj0 hqj w' hw'
      exact absurd hj0 (by omega)
    · intro w' hw'
      exact Or.inl ⟨hw', rfl⟩
  | succ fuel ih =>
    intro s minW best r minW' best' h
    simp only [rotateScan] at h
    split at h
    · rename_i hq
      obtain ⟨hE, hC, hB, hD⟩ := ih { s with current := (s.current + 1) % s.numKeys }
        minW best r minW' best' h
      refine ⟨hE, hC, ?_, ?_⟩
      · intro j hj1 hjf hqj w' hw'
        rcases Nat.eq_or_lt_of_le hj1 with hj | hj
        · exfalso
          have hq1 : s.quota ((s.current + 1) % s.numKeys) = true := hq
          rw [← hj] at hqj
          rw [hq1] at hqj
          exact Bool.noConfusion hqj
        · have hmod : ((s.current + 1) % s.numKeys + (j - 1)) % s.numKeys
              = (s.current + j) % s.numKeys := by
            rw [Nat.mod_add_mod]
            congr 1
            omega
          have hq2 : s.quota (((s.current + 1) % s.numKeys + (j - 1)) % s.numKeys)
              = false := by
            rw [hmod]
            exact hqj
          have hb := hB (j - 1) (by omega) (by omega) hq2 w' hw'
          have hb2 : w' ≤ (getWaitTime t
              { s with current := (s.current + 1) % s.numKeys }
              ((s.current + j) % s.numKeys)).2 := by
            rw [← hmod]
            exact hb
          rw [getWaitTime_snd_current] at hb2
          exact hb2
      · intro w' hw'
        rcases hD w' hw' with ⟨h1, h2⟩ | h1
        · exact Or.inl ⟨h1, h2⟩
        · right
          rw [h1]
          exact getWaitTime_snd_current
    · split at h
      · injection h with h1 h2
        exact absurd h2 (by simp)
      · rename_i hq hcb
        have hqf : s.quota ((s.current + 1) % s.numKeys) = false := by
          simpa using hq
        have hcmr1 : (canMakeRequest t
            { s with current := (s.current + 1) % s.numKeys }
            ((s.current + 1) % s.numKeys)).1
            = cleanOld t { s with current := (s.current + 1) % s.numKeys }
                ((s.current + 1) % s.numKeys) := by
          rw [canMakeRequest_state, if_neg (by simp [hqf])]
        have hg1 := getWaitTime_state (t := t)
          (s := (canMakeRequest t { s with current := (s.current + 1) % s.numKeys }
            ((s.current + 1) % s.numKeys)).1)
          (k := (s.current + 1) % s.numKeys)
        have hEvolve : ∀ k, ((getWaitTime t
            (canMakeRequest t { s with current := (s.current + 1) % s.numKeys }
              ((s.current + 1) % s.numKeys)).1
            ((s.current + 1) % s.numKeys)).1).hist k = s.hist k
            ∨ ((getWaitTime t
            (canMakeRequest t { s with current := (s.current + 1) % s.numKeys }
              ((s.current + 1) % s.numKeys)).1
            ((s.current + 1) % s.numKeys)).1).hist k = clean t (s.hist k) := by
          intro k
          by_cases hk : k = (s.current + 1) % s.numKeys
          · subst hk
            right
            rw [hg1, hcmr1, cleanOld_hist_self, cleanOld_hist_self, clean_idem]
          · left
            rw [hg1, hcmr1, cleanOld_hist_ne hk, cleanOld_hist_ne hk]
        have hGW : ∀ k2, (getWaitTime t (getWaitTime t
            (canMakeRequest t { s with current := (s.current + 1) % s.numKeys }
              ((s.current + 1) % s.numKeys)).1
            ((s.current + 1) % s.numKeys)).1 k2).2 = (getWaitTime t s k2).2 := by
          intro k2
          rw [getWaitTime_snd_getWaitTime, getWaitTime_snd_canMakeRequest]
          exact getWaitTime_snd_current
        have hg2val : (getWaitTime t
            (canMakeRequest t { s with current := (s.current + 1) % s.numKeys }
              ((s.current + 1) % s.numKeys)).1
            ((s.current + 1) % s.numKeys)).2
            = (getWaitTime t s ((s.current + 1) % s.numKeys)).2 := by
          rw [getWaitTime_snd_canMakeRequest]
          exact getWaitTime_snd_current
        have hGc : ((getWaitTime t
            (canMakeRequest t { s with current := (s.current + 1) % s.numKeys }
              ((s.current + 1) % s.numKeys)).1
            ((s.current + 1) % s.numKeys)).1).current
            = (s.current + 1) % s.numKeys := by
          rw [hg1, hcmr1]
          rfl
        have hGn : ((getWaitTime t
            (canMakeRequest t { s with current := (s.current + 1) % s.numKeys }
              ((s.current + 1) % s.numKeys)).1
            ((s.current + 1) % s.numKeys)).1).numKeys = s.numKeys := by
          rw [hg1, hcmr1]
          rfl
        have hGq : ((getWaitTime t
            (canMakeRequest t { s with current := (s.current + 1) % s.numKeys }
              ((s.current + 1) % s.numKeys)).1
            ((s.current + 1) % s.numKeys)).1).quota = s.quota := by
          rw [hg1, hcmr1]
          rfl
        have hEcomp : (∀ k, r.hist k = ((getWaitTime t
            (canMakeRequest t { s with current := (s.current + 1) % s.numKeys }
              ((s.current + 1) % s.numKeys)).1
            ((s.current + 1) % s.numKeys)).1).hist k
            ∨ r.hist k = clean t (((getWaitTime t
            (canMakeRequest t { s with current := (s.current + 1) % s.numKeys }
              ((s.current + 1) % s.numKeys)).1
            ((s.current + 1) % s.numKeys)).1).hist k)) →
            ∀ k, r.hist k = s.hist k ∨ r.hist k = clean t (s.hist k) := by
          intro hE k
          rcases hE k with h1 | h1
          · rcases hEvolve k with h2 | h2
            · left
              rw [h1]
              exact h2
            · right
              rw [h1]
              exact h2
          · rcases hEvolve k with h2 | h2
            · right
              rw [h1, h2]
            · right
              rw [h1, h2, clean_idem]
        split at h
        · rename_i hbet
          obtain ⟨hE, hC, hB, hD⟩ := ih _ _ _ _ _ _ h
          refine ⟨hEcomp hE, ?_, ?_, ?_⟩
          · intro w w' hw hw'
            rw [hw] at hbet
            have hlt : (getWaitTime t
                (canMakeRequest t { s with current := (s.current + 1) % s.numKeys }
                  ((s.current + 1) % s.numKeys)).1
                ((s.current + 1) % s.numKeys)).2 < w := of_decide_eq_true hbet
            have hcw := hC _ w' rfl hw'
            exact le_of_lt (lt_of_le_of_lt hcw hlt)
          · intro j hj1 hjf hqj w' hw'
            rcases Nat.eq_or_lt_of_le hj1 with hj | hj
            · subst hj
              have hcw := hC _ w' rfl hw'
              exact le_trans hcw (le_of_eq hg2val)
            · have hmod : ((s.current + 1) % s.numKeys + (j - 1)) % s.numKeys
                  = (s.current + j) % s.numKeys := by
                rw [Nat.mod_add_mod]
                congr 1
                omega
              have hq1 : ((getWaitTime t
                  (canMakeRequest t { s with current := (s.current + 1) % s.numKeys }
                    ((s.current + 1) % s.numKeys)).1
                  ((s.current + 1) % s.numKeys)).1).quota
                  ((((getWaitTime t
                  (canMakeRequest t { s with current := (s.current + 1) % s.numKeys }
                    ((s.current + 1) % s.numKeys)).1
                  ((s.current + 1) % s.numKeys)).1).current + (j - 1))
                  % ((getWaitTime t
                  (canMakeRequest t { s with current := (s.current + 1) % s.numKeys }
                    ((s.current + 1) % s.numKeys)).1
                  ((s.current + 1) % s.numKeys)).1).numKeys) = false := by
                rw [hGq, hGc, hGn, hmod]
                exact hqj
              have hb := hB (j - 1) (by omega) (by omega) hq1 w' hw'
              rw [hGc, hGn, hmod, hGW] at hb
              exact hb
          · intro w' hw'
            rcases hD w' hw' with ⟨h1, h2⟩ | h1
            · right
              injection h1 with h1
              rw [← h1, h2]
              exact hg2val
            · right
              rw [h1, hGW]
        · rename_i hbet
          obtain ⟨hE, hC, hB, hD⟩ := ih _ _ _ _ _ _ h
          refine ⟨hEcomp hE, hC, ?_, ?_⟩
          · intro j hj1 hjf hqj w' hw'
            rcases Nat.eq_or_lt_of_le hj1 with hj | hj
            · subst hj
              rcases hmW0 : minW with _ | m
              · rw [hmW0] at hbet
                simp at hbet
              · rw [hmW0] at hbet
                have hmle : m ≤ (getWaitTime t
                    (canMakeRequest t { s with current := (s.current + 1) % s.numKeys }
                      ((s.current + 1) % s.numKeys)).1
                    ((s.current + 1) % s.numKeys)).2 :=
                  le_of_not_lt (fun hlt => hbet (decide_eq_true hlt))
                have hcw := hC m w' hmW0 hw'
                exact le_trans (le_trans hcw hmle) (le_of_eq hg2val)
            · have hmod : ((s.current + 1) % s.numKeys + (j - 1)) % s.numKeys
                  = (s.current + j) % s.numKeys := by
                rw [Nat.mod_add_mod]
                congr 1
                omega
              have hq1 : ((getWaitTime t
                  (canMakeRequest t { s with current := (s.current + 1) % s.numKeys }
                    ((s.current + 1) % s.numKeys)).1
                  ((s.current + 1) % s.numKeys)).1).quota
                  ((((getWaitTime t
                  (canMakeRequest t { s with current := (s.current + 1) % s.numKeys }
                    ((s.current + 1) % s.numKeys)).1
                  ((s.current + 1) % s.numKeys)).1).current + (j - 1))
                  % ((getWaitTime t
                  (canMakeRequest t { s with current := (s.current + 1) % s.numKeys }
                    ((s.current + 1) % s.numKeys)).1
                  ((s.current + 1) % s.numKeys)).1).numKeys) = false := by
                rw [hGq, hGc, hGn, hmod]
                exact hqj
              have hb := hB (j - 1) (by omega) (by omega) hq1 w' hw'
              rw [hGc, hGn, hmod, hGW] at hb
              exact hb
          · intro w' hw'
            rcases hD w' hw' with ⟨h1, h2⟩ | h1
            · exact Or.inl ⟨h1, h2⟩
            · right
              rw [h1, hGW]

theorem hasAvailableKeys_false {s : RotState} (hq : ∀ k < s.numKeys, s.quota k = true) :
    hasAvailableKeys s = false := by
  simp only [hasAvailableKeys]
  have he : (List.range s.numKeys).filter (fun k => s.quota k) = List.range s.numKeys := by
    apply List.filter_eq_self.mpr
    intro a ha
    exact hq a (List.mem_range.mp ha)
  rw [he, List.length_range]
  simp

theorem rotateOnError_quota {s r : RotState} (h : rotateOnError s = some r) :
    r.quota = s.quota ∧ r.numKeys = s.numKeys ∧ r.rpm = s.rpm ∧ r.hist = s.hist := by
  simp only [rotateOnError] at h
  split at h
  · exact absurd h (by simp)
  · exact rotateOnErrorLoop_quota _ _ _ h

theorem translateStep_attempts (outcomes : Nat → QAOutcome) (maxTotal : Nat)
    (it : TrIter) :
    (∀ it2 w, translateStep outcomes maxTotal it = .next it2 w →
      it2.attempts = it.attempts + 1)
    ∧ (∀ r it2, translateStep outcomes maxTotal it = .done r it2 →
      it2.attempts ≤ it.attempts + 1) := by
  rcases hw : waitOrRotate it.time it.rot with _ | ⟨rot1, t1, o⟩
  · simp only [translateStep, hw]
    split
    · exact ⟨fun it2 w h => by cases h; rfl, fun r it2 h => by cases h⟩
    · exact ⟨fun it2 w h => by cases h; rfl, fun r it2 h => by cases h⟩
  · rcases ho : outcomes it.calls with t' | _ | _ | _ | _
    all_goals simp only [translateStep, hw, ho]
    · exact ⟨(fun it2 w h => by cases h), fun r it2 h => by cases h; exact Nat.le_succ _⟩
    · split
      · exact ⟨fun it2 w h => by cases h; rfl, fun r it2 h => by cases h⟩
      · exact ⟨fun it2 w h => by cases h; rfl, fun r it2 h => by cases h⟩
    · split
      · exact ⟨(fun it2 w h => by cases h), fun r it2 h => by cases h; exact Nat.le_refl _⟩
      · rcases hr : rotateOnError (markQuotaExceeded rot1 rot1.current) with _ | rot3
        all_goals simp only [hr]
        · exact ⟨(fun it2 w h => by cases h), fun r it2 h => by cases h; exact Nat.le_refl _⟩
        · exact ⟨fun it2 w h => by cases h; rfl, fun r it2 h => by cases h⟩
    · rcases hr : rotateOnError rot1 with _ | rot2
      all_goals simp only [hr]
      · exact ⟨(fun it2 w h => by cases h), fun r it2 h => by cases h; exact Nat.le_refl _⟩
      · exact ⟨fun it2 w h => by cases h; rfl, fun r it2 h => by cases h⟩
    · split
      · exact ⟨fun it2 w h => by cases h; rfl, fun r it2 h => by cases h⟩
      · exact ⟨fun it2 w h => by cases h; rfl, fun r it2 h => by cases h⟩

theorem translateLoop_attempts (outcomes : Nat → QAOutcome) (maxTotal : Nat) :
    ∀ (fuel : Nat) (it : TrIter),
      (translateLoop outcomes maxTotal fuel it).2.attempts ≤ it.attempts + fuel := by
  intro fuel
  induction fuel with
  | zero => intro it; exact Nat.le_refl _
  | succ fuel ih =>
    intro it
    rcases hstep : translateStep outcomes maxTotal it with ⟨r, it1⟩ | ⟨it1, w⟩
    · simp only [translateLoop, hstep]
      have := (translateStep_attempts outcomes maxTotal it).2 r it1 hstep
      omega
    · simp only [translateLoop, hstep]
      have h1 := (translateStep_attempts outcomes maxTotal it).1 it1 w hstep
      have h2 := ih it1
      omega

theorem vllmGenLoop_all_fail {outcomes : Nat → Option TableJSON} {maxRetries : Nat}
    (hfail : ∀ i, outcomes i = none) :
    ∀ (d attempt : Nat) (sleeps : List ℚ), maxRetries - attempt = d →
      attempt ≤ maxRetries →
      vllmGenLoop outcomes maxRetries attempt sleeps
        = (none, maxRetries,
           sleeps ++ (List.range' attempt (maxRetries - 1 - attempt)).map
             (fun i => (2 : ℚ) ^ i)) := by
  intro d
  induction d with
  | zero =>
    intro attempt sleeps hd hle
    have ha : attempt = maxRetries := by omega
    rw [vllmGenLoop]
    simp [show ¬ attempt < maxRetries by omega, ha, show maxRetries - 1 - maxRetries = 0
      by omega]
  | succ d ih =>
    intro attempt sleeps hd hle
    have hlt : attempt < maxRetries := by omega
    rw [vllmGenLoop]
    simp only [dif_pos hlt, hfail attempt]
    by_cases hlast : attempt < maxRetries - 1
    · rw [if_pos hlast, ih (attempt + 1) (sleeps ++ [(2 : ℚ) ^ attempt]) (by omega)
        (by omega)]
      have hn : maxRetries - 1 - attempt = (maxRetries - 1 - (attempt + 1)) + 1 := by
        omega
      rw [hn, List.range'_succ]
      simp
    · rw [if_neg hlast, ih (attempt + 1) sleeps (by omega) (by omega)]
      have h1 : maxRetries - 1 - (attempt + 1) = 0 := by omega
      have h2 : maxRetries - 1 - attempt = 0 := by omega
      rw [h1, h2]
      simp

/-! ## Claim theorems -/

/-- C1: a (table, language) pair whose step-1, step-2 and step-3 checkpoints
already exist is read from those checkpoints: re-running
`run_batch_translation` issues no backend call (neither vLLM nor Gemini, at
any step) for that language. -/
theorem c1_fully_checkpointed_zero_backend_calls {ctx : PipeCtx} {st0 : Store}
    {langs : List String} {l : String}
    (h1 : (st0.checkpoints .step1 l).isSome)
    (h2 : (st0.checkpoints .step2 l).isSome)
    (h3 : (st0.checkpoints .step3 l).isSome) :
    ∀ c ∈ (runBatch ctx st0 langs).calls, c.lang ≠ l := by
  intro c hc hcl
  rcases runBatch_calls_spec hc with ⟨_, hn⟩ | ⟨_, hn⟩ | ⟨_, hn⟩
  · rw [hcl] at hn; rw [Option.isNone_iff_eq_none] at hn; rw [hn] at h1; simp at h1
  · rw [hcl] at hn; rw [Option.isNone_iff_eq_none] at hn; rw [hn] at h2; simp at h2
  · rw [hcl] at hn; rw [Option.isNone_iff_eq_none] at hn; rw [hn] at h3; simp at h3

/-- C10: a step-1 checkpoint that parses as truthy JSON but fails `TableJSON`
validation makes its language invisible to reprocessing (the existence check
counts it done, so no backend is called for it at any step) and invisible to
the step-1 results (the validating loader drops it), so `run_batch_translation`
classifies it as permanently failed with no verdict, no kept output, and
leaves on disk exactly the state (same bad checkpoint, no final output) that
reproduces the outcome on every re-run. -/
theorem c10_invalid_checkpoint_permanently_fails {ctx : PipeCtx} {st0 : Store}
    {langs : List String} {l : String} {j : Json}
    (hmem : l ∈ langs)
    (hfin : st0.finalOutputs l = none)
    (hck : st0.checkpoints .step1 l = some j)
    (htr : j.truthy = true)
    (hval : TableJSON.model_validate j = none) :
    (∀ c ∈ (runBatch ctx st0 langs).calls, c.lang ≠ l)
    ∧ l ∈ (runBatch ctx st0 langs).step1Failed
    ∧ (∀ v ∈ (runBatch ctx st0 langs).verdicts, v.lang ≠ l)
    ∧ l ∉ (runBatch ctx st0 langs).kept
    ∧ (runBatch ctx st0 langs).store.checkpoints .step1 l = some j
    ∧ (runBatch ctx st0 langs).store.finalOutputs l = none := by
  have hrem : l ∈ remainingLanguages st0 langs := mem_remainingLanguages.mpr ⟨hmem, hfin⟩
  simp only [runBatch]
  split
  · rename_i hemp
    rw [List.isEmpty_iff] at hemp
    rw [hemp] at hrem
    simp at hrem
  · have hckA : (saveCheckpoint st0 .original "en" ctx.orig).checkpoints .step1 l
        = some j := by
      rw [saveCheckpoint_checkpoints_ne (by simp)]; exact hck
    have hlook : ((step1Run ctx (saveCheckpoint st0 .original "en" ctx.orig)
        (remainingLanguages st0 langs)).2.1.lookup l) = none := by
      apply lookup_eq_none_of_forall
      intro t ht
      obtain ⟨-, hd⟩ := step1Run_results_mem ht
      rcases hd with hisn | ⟨j2, hj2, htr2, hval2⟩
      · rw [hckA] at hisn; simp at hisn
      · rw [hckA] at hj2
        injection hj2 with hj2
        subst hj2
        rw [hval2] at hval
        simp at hval
    have hns : l ∉ (remainingLanguages st0 langs).filter
        (fun a => (((step1Run ctx (saveCheckpoint st0 .original "en" ctx.orig)
          (remainingLanguages st0 langs)).2.1).lookup a).isSome) := by
      intro hmemf
      have := (List.mem_filter.mp hmemf).2
      rw [hlook] at this
      simp at this
    obtain ⟨hcalls, hverd, hkept, hckpt, hfout⟩ := @runBatchTail_excluded
      ctx
      ((step1Run ctx (saveCheckpoint st0 .original "en" ctx.orig)
        (remainingLanguages st0 langs)).1)
      (remainingLanguages st0 langs)
      ((remainingLanguages st0 langs).filter
        (fun a => (((step1Run ctx (saveCheckpoint st0 .original "en" ctx.orig)
          (remainingLanguages st0 langs)).2.1).lookup a).isSome))
      ((remainingLanguages st0 langs).filter
        (fun a => (((step1Run ctx (saveCheckpoint st0 .original "en" ctx.orig)
          (remainingLanguages st0 langs)).2.1).lookup a).isNone))
      ((step1Run ctx (saveCheckpoint st0 .original "en" ctx.orig)
        (remainingLanguages st0 langs)).2.2)
      l hns
    refine ⟨?_, ?_, hverd, hkept, ?_, ?_⟩
    · intro c hc hcl
      rcases hcalls c hc with h | h
      · obtain ⟨-, -, hzn⟩ := step1Run_calls_mem h
        rw [hcl, hckA] at hzn
        simp at hzn
      · exact h hcl
    · rw [runBatchTail_step1Failed]
      exact List.mem_filter.mpr ⟨hrem, by rw [hlook]; rfl⟩
    · rw [hckpt, step1Run_checkpoints_step1_some (by rw [hckA]; rfl), hckA]
    · rw [hfout, step1Run_finalOutputs, saveCheckpoint_finalOutputs]
      exact hfin

/-- Witness for C10: a truthy but schema-invalid step-1 checkpoint for "es". -/
theorem c10_witness :
    ("es" ∈ ["es", "fr"]
      ∧ fixtureStoreBad.finalOutputs "es" = none
      ∧ fixtureStoreBad.checkpoints .step1 "es" = some badCheckpointJson
      ∧ badCheckpointJson.truthy = true
      ∧ TableJSON.model_validate badCheckpointJson = none)
    ∧ ((∀ c ∈ (runBatch fixtureCtx fixtureStoreBad ["es", "fr"]).calls, c.lang ≠ "es")
      ∧ "es" ∈ (runBatch fixtureCtx fixtureStoreBad ["es", "fr"]).step1Failed
      ∧ (∀ v ∈ (runBatch fixtureCtx fixtureStoreBad ["es", "fr"]).verdicts, v.lang ≠ "es")
      ∧ "es" ∉ (runBatch fixtureCtx fixtureStoreBad ["es", "fr"]).kept
      ∧ (runBatch fixtureCtx fixtureStoreBad ["es", "fr"]).store.checkpoints .step1 "es"
          = some badCheckpointJson
      ∧ (runBatch fixtureCtx fixtureStoreBad ["es", "fr"]).store.finalOutputs "es"
          = none) :=
  ⟨⟨by decide, rfl, rfl, rfl, rfl⟩,
   c10_invalid_checkpoint_permanently_fails (by decide) rfl rfl rfl rfl⟩

/-- C2: the step-4 quality gate.  The decision is KEEP exactly when
`score >= threshold`; with the configured `BLEU_THRESHOLD = 0` and a BLEU
oracle that is nonnegative (BLEU scores lie in [0,1]), every language that
reaches the gate with a back-translation is kept, none is dropped, and the
KEEP branch writes the *refined* (stage-2) table as the final output. -/
theorem c2_quality_gate_threshold_zero_keeps_all {ctx : PipeCtx} {st : Store}
    {refined back : List (String × TableJSON)}
    (hthr : ctx.threshold = 0)
    (hbleu : ∀ r c, 0 ≤ ctx.sentenceBleu r c)
    (hnd : (refined.map Prod.fst).Nodup)
    (hfresh : ∀ p ∈ refined, st.finalOutputs p.1 = none) :
    (∀ s t : ℚ, gateDecision s t = true ↔ t ≤ s)
    ∧ (step4Run ctx st refined back).2.2.2 = []
    ∧ (∀ v ∈ (step4Run ctx st refined back).2.1, v.keep = true)
    ∧ (∀ p ∈ refined, (back.lookup p.1).isSome →
        (step4Run ctx st refined back).1.finalOutputs p.1 = some p.2.model_dump) := by
  obtain ⟨hd, hv, hfin⟩ := step4_fold_keep hthr hbleu refined (st, [], [], []) hnd hfresh
  refine ⟨?_, hd, ?_, hfin⟩
  · intro s t
    simp [gateDecision, ge_iff_le]
  · intro v hv'
    rcases hv v hv' with h | h
    · simp at h
    · exact h

/-- Witness for C2: one refined language, threshold 0, gate keeps it and
writes the refined table. -/
theorem c2_witness :
    (fixtureCtx.threshold = 0
      ∧ (∀ r c, 0 ≤ fixtureCtx.sentenceBleu r c)
      ∧ (([("es", sampleTableEs)].map Prod.fst).Nodup)
      ∧ (∀ p ∈ [("es", sampleTableEs)], emptyStore.finalOutputs p.1 = none))
    ∧ ((∀ s t : ℚ, gateDecision s t = true ↔ t ≤ s)
      ∧ (step4Run fixtureCtx emptyStore [("es", sampleTableEs)]
          [("es", sampleTable)]).2.2.2 = []
      ∧ (∀ v ∈ (step4Run fixtureCtx emptyStore [("es", sampleTableEs)]
          [("es", sampleTable)]).2.1, v.keep = true)
      ∧ (∀ p ∈ [("es", sampleTableEs)], (([("es", sampleTable)]).lookup p.1).isSome →
          (step4Run fixtureCtx emptyStore [("es", sampleTableEs)]
            [("es", sampleTable)]).1.finalOutputs p.1 = some p.2.model_dump)) :=
  ⟨⟨rfl, fun _ _ => (by decide : (0:ℚ) ≤ 1), by decide, fun p _ => rfl⟩,
   c2_quality_gate_threshold_zero_keeps_all rfl (fun _ _ => (by decide : (0:ℚ) ≤ 1))
     (by decide) (fun p _ => rfl)⟩

/-- Witness for C1 at a concrete fully-checkpointed store. -/
theorem c1_witness :
    ((fixtureStoreEs.checkpoints .step1 "es").isSome
      ∧ (fixtureStoreEs.checkpoints .step2 "es").isSome
      ∧ (fixtureStoreEs.checkpoints .step3 "es").isSome)
    ∧ ∀ c ∈ (runBatch fixtureCtx fixtureStoreEs ["es", "fr"]).calls, c.lang ≠ "es" :=
  ⟨by decide,
   c1_fully_checkpointed_zero_backend_calls (by decide) (by decide) (by decide)⟩

/-- C3 (amended): in the QA-translation credential pool (`APIKeyRotator`) an
exhausted key stays exhausted for the process lifetime — every pool
operation preserves the quota-exceeded mark.  The table-translation
`GeminiClient`, by contrast, removes the mark when a call made on a
previously-failed key succeeds, and its `reset_failed_keys` clears all
marks (see the counterexample). -/
theorem c3_rotator_never_unexhausts {s : RotState} {k : Nat} (h : s.quota k = true) :
    (∀ k2, (markQuotaExceeded s k2).quota k = true)
    ∧ (∀ (t : ℚ) k2, ((canMakeRequest t s k2).1).quota k = true)
    ∧ (∀ (t : ℚ) k2, (recordRequest t s k2).quota k = true)
    ∧ (∀ (t : ℚ) k2, ((getWaitTime t s k2).1).quota k = true)
    ∧ (∀ (t : ℚ) r, waitOrRotate t s = some r → r.1.quota k = true)
    ∧ (∀ r, rotateOnError s = some r → r.quota k = true) := by
  refine ⟨?_, ?_, ?_, ?_, ?_, ?_⟩
  · intro k2
    simp only [markQuotaExceeded]
    split
    · rfl
    · exact h
  · intro t k2
    rw [canMakeRequest_quota]
    exact h
  · intro t k2
    exact h
  · intro t k2
    rw [getWaitTime_state]
    exact h
  · intro t r hr
    rw [waitOrRotate_quota hr]
    exact h
  · intro r hr
    rw [(rotateOnError_quota hr).1]
    exact h

/-- Witness for the amended C3 theorem: a pool of 3 keys with key 1
exhausted; every operation keeps it exhausted. -/
theorem c3_witness :
    ((⟨3, 10, 0, fun _ => [], fun i => i = 1⟩ : RotState).quota 1 = true)
    ∧ ((∀ k2, (markQuotaExceeded ⟨3, 10, 0, fun _ => [], fun i => i = 1⟩ k2).quota 1
          = true)
      ∧ (∀ (t : ℚ) k2, ((canMakeRequest t ⟨3, 10, 0, fun _ => [], fun i => i = 1⟩
          k2).1).quota 1 = true)
      ∧ (∀ (t : ℚ) k2, (recordRequest t ⟨3, 10, 0, fun _ => [], fun i => i = 1⟩
          k2).quota 1 = true)
      ∧ (∀ (t : ℚ) k2, ((getWaitTime t ⟨3, 10, 0, fun _ => [], fun i => i = 1⟩
          k2).1).quota 1 = true)
      ∧ (∀ (t : ℚ) r, waitOrRotate t ⟨3, 10, 0, fun _ => [], fun i => i = 1⟩ = some r →
          r.1.quota 1 = true)
      ∧ (∀ r, rotateOnError ⟨3, 10, 0, fun _ => [], fun i => i = 1⟩ = some r →
          r.quota 1 = true)) :=
  ⟨by decide, c3_rotator_never_unexhausts (by decide)⟩

/-- Counterexample to C3 as stated: `GeminiClient.generate_structured_json`
removes the exhausted mark from the current key when a call on it succeeds
(`self.failed_keys.discard(...)`), and `reset_failed_keys` clears every
mark.  The state (2 keys, key 0 current and marked failed) is reachable:
after all keys are marked failed a later call starts on the failed current
key. -/
theorem c3_counterexample :
    (0 ∈ (⟨2, 0, {0}⟩ : GCState).failedKeys)
    ∧ 0 ∉ (gcGenerate (fun _ => GenOutcome.ok sampleTableEs) ⟨2, 0, {0}⟩).1.failedKeys
    ∧ (gcGenerate (fun _ => GenOutcome.ok sampleTableEs) ⟨2, 0, {0}⟩).2.1
        = some sampleTableEs
    ∧ (gcResetFailedKeys ⟨2, 0, {0, 1}⟩).failedKeys = ∅ :=
  ⟨by decide, by decide, by decide, by decide⟩

/-- C5: the sliding-window rate limiter never admits more than `rpm`
requests on a single key within one window.  Under the window invariant
(every key's cleaned history holds at most `rpm` timestamps, none exactly on
the window boundary), with a positive limit and at least one non-exhausted
key, `wait_or_rotate` terminates with some outcome, and afterwards the
current key *can* make a request at the returned (possibly advanced) time —
it either rotated to a not-yet-saturated key or waited past the soonest
window expiry of the chosen key.  The wait is minimal: the returned time
never exceeds `t + wait(k) + 0.5` for *any* non-exhausted key `k` (the scan
tracks the smallest `get_wait_time` over all non-exhausted keys, so the
sleep is bounded by the soonest window expiry among them plus the code's
0.5 s buffer).  Recording a request right after a positive
`can_make_request` answer keeps that key's within-window count at most
`rpm` and leaves every other key's history untouched. -/
theorem c5_rate_limit_never_exceeded {s : RotState} {t : ℚ} {g : Nat}
    (hR : 0 < s.rpm)
    (hN : 0 < s.numKeys)
    (hg : g < s.numKeys) (hq0 : s.quota g = false)
    (hbound : ∀ k, (clean t (s.hist k)).length ≤ s.rpm)
    (hedge : ∀ k, ∀ ts ∈ s.hist k, ts + 60 ≠ t) :
    ((∃ r, waitOrRotate t s = some r)
      ∧ ∀ r, waitOrRotate t s = some r →
          (canMakeRequest r.2.1 r.1 r.1.current).2 = true ∧ t ≤ r.2.1
          ∧ ∀ k, k < s.numKeys → s.quota k = false →
              r.2.1 ≤ t + (getWaitTime t s k).2 + 1/2)
    ∧ (∀ (u : RotState) (k : Nat) (v : ℚ),
        (canMakeRequest v u k).2 = true →
        (clean v ((recordRequest v (canMakeRequest v u k).1 k).hist k)).length ≤ u.rpm
        ∧ ∀ j, j ≠ k → (recordRequest v (canMakeRequest v u k).1 k).hist j
            = (canMakeRequest v u k).1.hist j) := by
  constructor
  · have hav : hasAvailableKeys s = true := hasAvailableKeys_true hg hq0
    simp only [waitOrRotate]
    rw [if_neg (by simp [hav])]
    by_cases hc : (canMakeRequest t s s.current).2 = true
    · rw [if_pos hc]
      refine ⟨⟨_, rfl⟩, ?_⟩
      intro r hr
      injection hr with hr
      rw [← hr]
      refine ⟨?_, le_refl t, ?_⟩
      · show (canMakeRequest t (canMakeRequest t s s.current).1
          ((canMakeRequest t s s.current).1.current)).2 = true
        rw [canMakeRequest_current]
        exact canMakeRequest_true_post hc
      · intro k hk hqk
        have h0 := getWaitTime_snd_nonneg (t := t) (s := s) (k := k)
        show t ≤ t + (getWaitTime t s k).2 + 1/2
        linarith
    · rw [if_neg hc]
      have hInv0 : StInv t s := ⟨hbound, hedge⟩
      have hB0 : BestInv t (canMakeRequest t s s.current).1 none s.current :=
        fun w hw => absurd hw (by simp)
      have hspec := rotateScan_spec s.numKeys (canMakeRequest t s s.current).1
        none s.current (StInv_canMakeRequest hInv0) hB0
      rcases hscan : rotateScan t s.numKeys (canMakeRequest t s s.current).1
        none s.current with ⟨s2, res⟩
      rcases res with _ | ⟨minW', best'⟩
      · simp only [hscan]
        refine ⟨⟨_, rfl⟩, ?_⟩
        intro r hr
        injection hr with hr
        rw [← hr]
        refine ⟨hspec.1 s2 hscan, le_refl t, ?_⟩
        intro k hk hqk
        have h0 := getWaitTime_snd_nonneg (t := t) (s := s) (k := k)
        show t ≤ t + (getWaitTime t s k).2 + 1/2
        linarith
      · obtain ⟨hI2, hB2, hprop⟩ := hspec.2 s2 minW' best' hscan
        have hfields := rotateScan_fields (t := t) s.numKeys
          (canMakeRequest t s s.current).1 none s.current
        rw [hscan] at hfields
        simp only at hfields
        obtain ⟨hf1, hf2, hf3⟩ := hfields
        obtain ⟨hcs1, hcs2⟩ := canMakeRequest_sizes (t := t) (s := s) (k := s.current)
        rcases hmW : minW' with _ | w0
        · exfalso
          rw [hmW] at hprop
          obtain ⟨-, hall⟩ := hprop rfl
          rw [canMakeRequest_quota, canMakeRequest_current, hcs1] at hall
          obtain ⟨j, hj1, hjN, hjk⟩ := exists_shift_mod (N := s.numKeys)
            (c := s.current) hN hg
          have hj := hall j hj1 hjN
          rw [hjk, hq0] at hj
          exact absurd hj (by simp)
        · rw [hmW] at hB2
          obtain ⟨hqb, hfix, hsat⟩ := hB2 w0 rfl
          have hrpm2 : s2.rpm = s.rpm := by rw [hf2, hcs2]
          rcases hLs : s2.hist best' with _ | ⟨o, rest⟩
          · exfalso
            rw [hLs] at hsat
            simp at hsat
            omega
          · have hLen : rest.length + 1 = s2.rpm := by
              have hle : (clean t (s2.hist best')).length ≤ s2.rpm := hI2.1 best'
              rw [hfix, hLs] at hle
              rw [hLs] at hsat
              simp only [List.length_cons] at hle hsat
              omega
            have hs3hist : (cleanOld t { s2 with current := best' } best').hist best'
                = o :: rest := by
              rw [cleanOld_hist_self]
              show clean t (s2.hist best') = o :: rest
              rw [hfix, hLs]
            have hnotlt : ¬ ((cleanOld t { s2 with current := best' } best').hist
                best').length < (cleanOld t { s2 with current := best' } best').rpm := by
              rw [hs3hist]
              show ¬ (o :: rest).length < s2.rpm
              rw [List.length_cons]
              omega
            have hgw : getWaitTime t { s2 with current := best' } best'
                = (cleanOld t { s2 with current := best' } best',
                   max 0 (o + 60 - t)) := by
              simp only [getWaitTime]
              rw [if_neg hnotlt, hs3hist]
            have hole : ¬ o < t - 60 :=
              clean_fixed_head (show clean t (o :: rest) = o :: rest by
                rw [← hLs]; exact hfix)
            have homem : o ∈ s2.hist best' := by
              rw [hLs]
              exact List.mem_cons_self o rest
            have hone : o + 60 ≠ t := hI2.2 best' o homem
            have hwpos : (0 : ℚ) < o + 60 - t := by
              rcases lt_or_eq_of_le (by linarith : (0 : ℚ) ≤ o + 60 - t) with h | h
              · exact h
              · exfalso
                apply hone
                linarith
            have hmax : max (0 : ℚ) (o + 60 - t) = o + 60 - t :=
              max_eq_right (by linarith)
            simp only [hscan, hgw]
            rw [if_pos (show (0 : ℚ) < max 0 (o + 60 - t) by rw [hmax]; exact hwpos)]
            refine ⟨⟨_, rfl⟩, ?_⟩
            intro r hr
            injection hr with hr
            rw [← hr]
            refine ⟨?_, ?_, ?_⟩
            · show (canMakeRequest (t + max 0 (o + 60 - t) + 1/2)
                (cleanOld t { s2 with current := best' } best')
                ((cleanOld t { s2 with current := best' } best').current)).2 = true
              have hcur : (cleanOld t { s2 with current := best' } best').current
                  = best' := rfl
              rw [hcur, canMakeRequest_snd (show (cleanOld t
                { s2 with current := best' } best').quota best' = false from hqb),
                decide_eq_true_eq, hs3hist]
              show (clean (t + max 0 (o + 60 - t) + 1/2) (o :: rest)).length < s2.rpm
              have hdrop : clean (t + max 0 (o + 60 - t) + 1/2) (o :: rest)
                  = clean (t + max 0 (o + 60 - t) + 1/2) rest := by
                simp only [clean, List.dropWhile_cons]
                rw [decide_eq_true (show o < t + max 0 (o + 60 - t) + 1/2 - 60 by
                  rw [hmax]; linarith)]
                rw [if_pos rfl]
              rw [hdrop]
              have hlen2 : (clean (t + max 0 (o + 60 - t) + 1/2) rest).length
                  ≤ rest.length := (List.dropWhile_sublist _).length_le
              omega
            · show t ≤ t + max 0 (o + 60 - t) + 1/2
              rw [hmax]
              linarith
            · intro k hk hqk
              have hscan2 : rotateScan t s.numKeys (canMakeRequest t s s.current).1
                  none s.current = (s2, some (some w0, best')) := by
                rw [← hmW]
                exact hscan
              obtain ⟨hEv, hCm, hBnd, hDm⟩ := rotateScan_minspec s.numKeys
                (canMakeRequest t s s.current).1 none s.current s2 (some w0) best'
                hscan2
              have hw0val : w0
                  = (getWaitTime t (canMakeRequest t s s.current).1 best').2 := by
                rcases hDm w0 rfl with ⟨h1, h2⟩ | h1
                · exact absurd h1 (by simp)
                · exact h1
              have hrecomp : (getWaitTime t { s2 with current := best' } best').2
                  = max 0 (o + 60 - t) := by
                rw [hgw]
              have hstab : (getWaitTime t s2 best').2
                  = (getWaitTime t (canMakeRequest t s s.current).1 best').2 := by
                apply getWaitTime_snd_congr
                · rcases hEv best' with h1 | h1
                  · rw [h1]
                  · rw [h1, clean_idem]
                · exact hf2
              have hkey : max 0 (o + 60 - t) = w0 := by
                rw [← hrecomp, getWaitTime_snd_current, hstab, ← hw0val]
              obtain ⟨j, hj1, hjN, hjk⟩ := exists_shift_mod (N := s.numKeys)
                (c := s.current) hN hk
              have hidx : ((canMakeRequest t s s.current).1.current + j)
                  % (canMakeRequest t s s.current).1.numKeys = k := by
                rw [canMakeRequest_current, hcs1, hjk]
              have hqc : (canMakeRequest t s s.current).1.quota
                  (((canMakeRequest t s s.current).1.current + j)
                    % (canMakeRequest t s s.current).1.numKeys) = false := by
                rw [hidx, canMakeRequest_quota]
                exact hqk
              have hble := hBnd j hj1 hjN hqc w0 rfl
              rw [hidx, getWaitTime_snd_canMakeRequest] at hble
              show t + max 0 (o + 60 - t) + 1/2 ≤ t + (getWaitTime t s k).2 + 1/2
              rw [hkey]
              linarith
  · intro u k v hcm
    obtain ⟨hqk, hlen⟩ := canMakeRequest_true_elim hcm
    have hstate : (canMakeRequest v u k).1 = cleanOld v u k := by
      rw [canMakeRequest_state, if_neg (by simp [hqk])]
    constructor
    · rw [hstate]
      have hh : (recordRequest v (cleanOld v u k) k).hist k
          = clean v (u.hist k) ++ [v] := by
        simp [recordRequest, cleanOld_hist_self]
      rw [hh]
      have h1 : (clean v (clean v (u.hist k) ++ [v])).length
          ≤ (clean v (u.hist k) ++ [v]).length := (List.dropWhile_sublist _).length_le
      rw [List.length_append] at h1
      simp only [List.length_singleton] at h1
      omega
    · intro j hj
      simp [recordRequest, hj]

/-- Witness for C5: three keys with limit 2 per minute, empty histories,
none exhausted, at time 0. -/
theorem c5_witness :
    ((0 : Nat) < (⟨3, 2, 0, fun _ => [], fun _ => false⟩ : RotState).rpm
      ∧ (0 : Nat) < (⟨3, 2, 0, fun _ => [], fun _ => false⟩ : RotState).numKeys
      ∧ (0 : Nat) < (⟨3, 2, 0, fun _ => [], fun _ => false⟩ : RotState).numKeys
      ∧ (⟨3, 2, 0, fun _ => [], fun _ => false⟩ : RotState).quota 0 = false
      ∧ (∀ k, (clean 0 ((⟨3, 2, 0, fun _ => [], fun _ => false⟩ : RotState).hist
          k)).length ≤ (⟨3, 2, 0, fun _ => [], fun _ => false⟩ : RotState).rpm)
      ∧ (∀ k, ∀ ts ∈ (⟨3, 2, 0, fun _ => [], fun _ => false⟩ : RotState).hist k,
          ts + 60 ≠ (0 : ℚ)))
    ∧ (((∃ r, waitOrRotate 0 ⟨3, 2, 0, fun _ => [], fun _ => false⟩ = some r)
        ∧ ∀ r, waitOrRotate 0 ⟨3, 2, 0, fun _ => [], fun _ => false⟩ = some r →
            (canMakeRequest r.2.1 r.1 r.1.current).2 = true ∧ (0 : ℚ) ≤ r.2.1
            ∧ ∀ k, k < (⟨3, 2, 0, fun _ => [], fun _ => false⟩ : RotState).numKeys →
                (⟨3, 2, 0, fun _ => [], fun _ => false⟩ : RotState).quota k = false →
                r.2.1 ≤ (0 : ℚ)
                  + (getWaitTime 0 ⟨3, 2, 0, fun _ => [], fun _ => false⟩ k).2 + 1/2)
      ∧ (∀ (u : RotState) (k : Nat) (v : ℚ),
          (canMakeRequest v u k).2 = true →
          (clean v ((recordRequest v (canMakeRequest v u k).1 k).hist k)).length
            ≤ u.rpm
          ∧ ∀ j, j ≠ k → (recordRequest v (canMakeRequest v u k).1 k).hist j
              = (canMakeRequest v u k).1.hist j)) :=
  ⟨⟨by decide, by decide, by decide, by decide, fun k => by simp [clean],
    fun k ts hts => absurd hts (List.not_mem_nil ts)⟩,
   c5_rate_limit_never_exceeded (g := 0) (by decide) (by decide) (by decide)
     (by decide) (fun k => by simp [clean])
     (fun k ts hts => absurd hts (List.not_mem_nil ts))⟩

/-- C6: with every credential marked exhausted, acquisition terminates and
reports exhaustion rather than blocking: `wait_or_rotate` raises immediately
(modelled as `none`), `GeminiClient._rotate_key` reports failure, the whole
`translate` retry loop ends in the per-unit `None` outcome (never a success
and never an unbounded wait), and the per-language loop of the run still
produces an outcome for every language — the failure is per (unit, language),
not per run. -/
theorem c6_all_exhausted_reports_exhausted {s : RotState} {g : GCState} {t : ℚ}
    (hq : ∀ k < s.numKeys, s.quota k = true)
    (hg : Finset.range g.numKeys ⊆ g.failedKeys) :
    waitOrRotate t s = none
    ∧ (gcRotateKey g).2 = false
    ∧ (∀ (outcomes : Nat → QAOutcome) (maxTotal fuel a c : Nat) (t2 : ℚ),
        (translateLoop outcomes maxTotal fuel ⟨s, t2, a, c⟩).1 = .failed)
    ∧ (∀ (process : String → Option (List QAPair)) (langs : List String) (l : String),
        l ∈ langs → (l, process l) ∈ runLanguagesLoop process langs) := by
  have hav : hasAvailableKeys s = false := hasAvailableKeys_false hq
  have hwor : ∀ t2 : ℚ, waitOrRotate t2 s = none := by
    intro t2
    simp [waitOrRotate, hav]
  refine ⟨hwor t, ?_, ?_, ?_⟩
  · have hsub : Finset.range g.numKeys ⊆ insert g.currentKeyIndex g.failedKeys :=
      hg.trans (Finset.subset_insert _ _)
    have hcard : g.numKeys ≤ (insert g.currentKeyIndex g.failedKeys).card := by
      calc g.numKeys = (Finset.range g.numKeys).card := (Finset.card_range _).symm
      _ ≤ _ := Finset.card_le_card hsub
    simp [gcRotateKey, hcard]
  · intro outcomes maxTotal fuel
    induction fuel with
    | zero => intro a c t2; rfl
    | succ fuel ih =>
      intro a c t2
      simp only [translateLoop, translateStep, hwor t2]
      by_cases hlt : a + 1 < maxTotal
      · simp only [if_pos hlt]
        exact ih _ _ _
      · simp only [if_neg hlt]
        exact ih _ _ _
  · intro process langs l hl
    simp only [runLanguagesLoop, List.mem_map]
    exact ⟨l, hl, rfl⟩

/-- Witness for C6: two fully exhausted credential pools. -/
theorem c6_witness :
    ((∀ k < (⟨2, 10, 0, fun _ => [], fun _ => true⟩ : RotState).numKeys,
        (⟨2, 10, 0, fun _ => [], fun _ => true⟩ : RotState).quota k = true)
      ∧ Finset.range (⟨2, 0, {0, 1}⟩ : GCState).numKeys
          ⊆ (⟨2, 0, {0, 1}⟩ : GCState).failedKeys)
    ∧ (waitOrRotate 0 ⟨2, 10, 0, fun _ => [], fun _ => true⟩ = none
      ∧ (gcRotateKey ⟨2, 0, {0, 1}⟩).2 = false
      ∧ (∀ (outcomes : Nat → QAOutcome) (maxTotal fuel a c : Nat) (t2 : ℚ),
          (translateLoop outcomes maxTotal fuel
            ⟨⟨2, 10, 0, fun _ => [], fun _ => true⟩, t2, a, c⟩).1 = .failed)
      ∧ (∀ (process : String → Option (List QAPair)) (langs : List String) (l : String),
          l ∈ langs → (l, process l) ∈ runLanguagesLoop process langs)) :=
  ⟨⟨by decide, by decide⟩,
   c6_all_exhausted_reports_exhausted (by decide) (by decide)⟩

/-- C4 (amended): the retry semantics differ per backend client.
(1) `VLLMClient.generate_structured_json` retries a failing call on its one
credential with exponential backoff sleeps `2^0, 2^1, …`, capped at
`max_retries` attempts.
(2) In `QATranslator.translate`, a non-quota error keeps the same rotator
state (no rotation, no exhaustion mark) and backs off
`min(2^(attempts % 5), 16)` seconds.
(3) A quota error marks the acquired key exhausted — and the mark is still
set on the continuing state — while advancing one attempt without backoff.
(4) The loop makes at most `max_retries × credential_count` attempts before
the unit is recorded as failed.
`GeminiClient.generate_structured_json`, however, aborts on the first
non-quota error with no retry at all (see the counterexample). -/
theorem c4_retry_and_rotation_semantics {voutcomes : Nat → Option TableJSON}
    {maxRetries : Nat} (hfail : ∀ i, voutcomes i = none) :
    vllmGenerate voutcomes maxRetries
      = (none, maxRetries, (List.range (maxRetries - 1)).map (fun i => (2 : ℚ) ^ i))
    ∧ (∀ (outcomes : Nat → QAOutcome) (maxTotal : Nat) (it : TrIter)
        (rot1 : RotState) (t1 : ℚ) (o : AcquireOutcome),
        waitOrRotate it.time it.rot = some (rot1, t1, o) →
        outcomes it.calls = .otherError →
        it.attempts + 1 < maxTotal →
        translateStep outcomes maxTotal it
          = .next ⟨rot1, t1 + backoffWait (it.attempts + 1), it.attempts + 1,
              it.calls + 1⟩ (backoffWait (it.attempts + 1)))
    ∧ (∀ (outcomes : Nat → QAOutcome) (maxTotal : Nat) (it : TrIter)
        (rot1 : RotState) (t1 : ℚ) (o : AcquireOutcome) (it2 : TrIter) (w : ℚ),
        waitOrRotate it.time it.rot = some (rot1, t1, o) →
        outcomes it.calls = .quotaError →
        translateStep outcomes maxTotal it = .next it2 w →
        it2.rot.quota rot1.current = true ∧ it2.attempts = it.attempts + 1 ∧ w = 0)
    ∧ (∀ (outcomes : Nat → QAOutcome) (mr : Nat) (s : RotState) (t : ℚ),
        (qaTranslate outcomes mr s t).2.attempts ≤ mr * s.numKeys) := by
  refine ⟨?_, ?_, ?_, ?_⟩
  · rw [vllmGenerate, vllmGenLoop_all_fail hfail maxRetries 0 [] rfl (Nat.zero_le _)]
    rw [List.range_eq_range']
    simp
  · intro outcomes maxTotal it rot1 t1 o hw ho hlt
    simp [translateStep, hw, ho, hlt]
  · intro outcomes maxTotal it rot1 t1 o it2 w hw ho hstep
    simp only [translateStep, hw, ho] at hstep
    split at hstep
    · cases hstep
    · rcases hr : rotateOnError (markQuotaExceeded rot1 rot1.current) with _ | rot3
      · rw [hr] at hstep
        cases hstep
      · rw [hr] at hstep
        cases hstep
        refine ⟨?_, rfl, rfl⟩
        rw [(rotateOnError_quota hr).1]
        simp [markQuotaExceeded]
  · intro outcomes mr s t
    have := translateLoop_attempts outcomes (mr * s.numKeys) (mr * s.numKeys) ⟨s, t, 0, 0⟩
    simpa [qaTranslate] using this

/-- Witness for the amended C4 theorem with an always-failing vLLM oracle and
`max_retries = 3`. -/
theorem c4_witness :
    (∀ i, (fun _ : Nat => (none : Option TableJSON)) i = none)
    ∧ (vllmGenerate (fun _ : Nat => (none : Option TableJSON)) 3
        = (none, 3, (List.range 2).map (fun i => (2 : ℚ) ^ i))
      ∧ (∀ (outcomes : Nat → QAOutcome) (maxTotal : Nat) (it : TrIter)
          (rot1 : RotState) (t1 : ℚ) (o : AcquireOutcome),
          waitOrRotate it.time it.rot = some (rot1, t1, o) →
          outcomes it.calls = .otherError →
          it.attempts + 1 < maxTotal →
          translateStep outcomes maxTotal it
            = .next ⟨rot1, t1 + backoffWait (it.attempts + 1), it.attempts + 1,
                it.calls + 1⟩ (backoffWait (it.attempts + 1)))
      ∧ (∀ (outcomes : Nat → QAOutcome) (maxTotal : Nat) (it : TrIter)
          (rot1 : RotState) (t1 : ℚ) (o : AcquireOutcome) (it2 : TrIter) (w : ℚ),
          waitOrRotate it.time it.rot = some (rot1, t1, o) →
          outcomes it.calls = .quotaError →
          translateStep outcomes maxTotal it = .next it2 w →
          it2.rot.quota rot1.current = true ∧ it2.attempts = it.attempts + 1 ∧ w = 0)
      ∧ (∀ (outcomes : Nat → QAOutcome) (mr : Nat) (s : RotState) (t : ℚ),
          (qaTranslate outcomes mr s t).2.attempts ≤ mr * s.numKeys)) :=
  ⟨fun _ => rfl, c4_retry_and_rotation_semantics (fun _ => rfl)⟩

/-- Counterexample to C4 as stated: `GeminiClient.generate_structured_json`
returns `None` after exactly one attempt on a non-quota error — no retry on
the same credential and no backoff — even with 2 keys and the default
`max_retries = 2`. -/
theorem c4_counterexample :
    gcGenerate (fun _ => GenOutcome.otherErr) ⟨2, 0, ∅⟩ = (⟨2, 0, ∅⟩, none, 1) := by
  decide

/-- C7 (amended): the pipeline does not enforce shape preservation.  Every
table accepted into the stage-1 results is taken verbatim either from a
checkpoint that validates against the `TableJSON` schema or from a backend
response; no comparison of row or column counts with the stage input is ever
made (shape preservation is requested in the prompt text only). -/
theorem c7_stage_accepts_any_validated_shape {ctx : PipeCtx} {st : Store}
    {remaining : List String} {l : String} {t : TableJSON}
    (h : (l, t) ∈ (step1Run ctx st remaining).2.1) :
    (∃ j, st.checkpoints .step1 l = some j ∧ j.truthy = true ∧
        TableJSON.model_validate j = some t)
    ∨ ctx.vllm l = some t ∨ ctx.gemini .step1 l = some t := by
  simp only [step1Run] at h
  split at h
  · exact Or.inl (loadStepResults_mem h).2
  · simp only [List.mem_append] at h
    rcases h with (h | h) | h
    · exact Or.inl (loadStepResults_mem h).2
    · exact Or.inr (Or.inl (pair_filterMap_mem h).2)
    · exact Or.inr (Or.inr (pair_filterMap_mem h).2)

/-- Witness for the amended C7 theorem, at the shape-changing context. -/
theorem c7_witness :
    (("es", shrunkTable) ∈ (step1Run ctxBadShape emptyStore ["es"]).2.1)
    ∧ ((∃ j, emptyStore.checkpoints .step1 "es" = some j ∧ j.truthy = true ∧
          TableJSON.model_validate j = some shrunkTable)
        ∨ ctxBadShape.vllm "es" = some shrunkTable
        ∨ ctxBadShape.gemini .step1 "es" = some shrunkTable) :=
  ⟨by decide,
   @c7_stage_accepts_any_validated_shape ctxBadShape emptyStore ["es"] "es" shrunkTable
     (by decide)⟩

/-- Counterexample to C7 as stated: a stage-1 backend response whose column
count (1 vs 2) and row count (1 vs 2) differ from the input table is
accepted into the stage results and checkpointed unchanged. -/
theorem c7_counterexample :
    ((step1Run ctxBadShape emptyStore ["es"]).2.1.lookup "es" = some shrunkTable)
    ∧ shrunkTable.columns.length ≠ sampleTable.columns.length
    ∧ shrunkTable.data.length ≠ sampleTable.data.length
    ∧ (step1Run ctxBadShape emptyStore ["es"]).1.checkpoints .step1 "es"
        = some shrunkTable.model_dump :=
  ⟨by decide, by decide, by decide, rfl⟩

/-- C8 (amended): only the QA-translation pipeline special-cases language
code "en": the pair is copied unchanged and `translate` is never invoked. -/
theorem c8_qa_en_pass_through (pair : QAPair) (tr : Option TranslatedQA) :
    processQAPair "en" pair tr = (some pair, false) := rfl

/-- Counterexample to C8 as stated: the table-translation pipeline has no
"en" special case — running it over a language list containing "en" with no
prior checkpoints issues a step-1 vLLM backend call for "en". -/
theorem c8_counterexample :
    Call.mk .vllmStep1 "en" ∈ (runBatch fixtureCtx emptyStore ["en", "es"]).calls := by
  decide

/-- C9: the QA per-language epilogue saves and marks (language, table)
completed as soon as at least one QA pair translated, even when other pairs
failed (the failure count records them); the completion mark is derived from
the written output file, so every later run's skip check sees it. -/
theorem c9_partial_success_marked_completed {lang tableId : String}
    {items : List (QAPair × Option TranslatedQA)}
    {outputs : String → String → Option (List QAPair)}
    (hen : lang ≠ "en")
    (hsome : ∃ it ∈ items, it.2.isSome = true) :
    (translateLang lang items).1 ≠ []
    ∧ finishLanguage (translateLang lang items).1
        = (some (translateLang lang items).1, true)
    ∧ trackerIsCompleted
        (writeQAOutput outputs lang tableId (translateLang lang items).1) lang tableId
        = true
    ∧ (translateLang lang items).2 = (items.filter (fun it => it.2.isNone)).length := by
  have he := translateLang_eq hen items
  have hne0 : items.filterMap (fun it => (it.2).map (fun t =>
      { it.1 with question := t.translated_question,
                  answer := t.translated_answer })) ≠ [] := by
    intro hnil
    rw [List.filterMap_eq_nil_iff] at hnil
    obtain ⟨it, hit, hs⟩ := hsome
    obtain ⟨t, ht⟩ := Option.isSome_iff_exists.mp hs
    have h2 := hnil it hit
    rw [ht] at h2
    simp at h2
  have hne : (translateLang lang items).1 ≠ [] := by
    rw [he]
    exact hne0
  refine ⟨hne, ?_, ?_, ?_⟩
  · have hie : (translateLang lang items).1.isEmpty = false := by
      cases hb : (translateLang lang items).1.isEmpty
      · rfl
      · exact absurd (List.isEmpty_iff.mp hb) hne
    simp [finishLanguage, hie]
  · simp [trackerIsCompleted, writeQAOutput]
  · rw [he]

/-- Witness for C9: two QA pairs, one translated, one permanently failed. -/
theorem c9_witness :
    ("es" ≠ "en"
      ∧ ∃ it ∈ [(sampleQA, some sampleTrans), (sampleQA2, none)], it.2.isSome = true)
    ∧ ((translateLang "es" [(sampleQA, some sampleTrans), (sampleQA2, none)]).1 ≠ []
      ∧ finishLanguage
          (translateLang "es" [(sampleQA, some sampleTrans), (sampleQA2, none)]).1
        = (some (translateLang "es" [(sampleQA, some sampleTrans), (sampleQA2, none)]).1,
           true)
      ∧ trackerIsCompleted
          (writeQAOutput qaOutputsEmpty "es" "t1"
            (translateLang "es" [(sampleQA, some sampleTrans), (sampleQA2, none)]).1)
          "es" "t1" = true
      ∧ (translateLang "es" [(sampleQA, some sampleTrans), (sampleQA2, none)]).2
        = (([(sampleQA, some sampleTrans), (sampleQA2, none)]).filter
            (fun it => it.2.isNone)).length) :=
  ⟨⟨by decide, by decide⟩,
   c9_partial_success_marked_completed (by decide) (by decide)⟩

end MMTQA
